import Mathlib

/-!
Verification of the MCDA scoring-and-allocation engine of the AFI_DASH-PA
dashboard.  The engine has two variants in the source:

* `scoreAndAllocate` in `lib/mcda.ts` — min–max normalisation of five
  indicators, weighted composite score, optional rural uplift, then a
  share-proportional allocation with a clamp-and-top-up floor/cap pass and
  `Math.round` on the way out;
* `allocateBudget` inlined in `app/mcda/page.tsx` — score boosting for rural
  regions, proportional allocation, floor pass with proportional deficit
  recovery from donors, cap pass with score-weighted redistribution of the
  clipped excess, and a final multiplicative renormalisation.

JavaScript numbers are modelled as exact rationals (`ℚ`); `Math.round` is
modelled as `⌊x + 1/2⌋` (its behaviour on non-negative halves and everywhere
except exact negative halves, which never arise in the claims checked here).
Objects keyed by unique region names are modelled positionally as lists.
-/

namespace AfiDash

/-- JS `Math.round` (round half towards +∞), as a map on rationals. -/
def jsRound (q : ℚ) : ℚ := ((⌊q + 1/2⌋ : ℤ) : ℚ)

/-- JS truthiness of an optional numeric field: `undefined` and `0` are falsy. -/
def otruthy : Option ℚ → Bool
  | none => false
  | some x => decide (x ≠ 0)

/-! ## lib/mcda.ts -/

/-- `type Range = { min: number; max: number }` from `lib/mcda.ts`. -/
structure MRange where
  rmin : ℚ
  rmax : ℚ
deriving DecidableEq

/-- `Math.min(...xs)` of a list (JS spread); `0` for the empty list, matching
the `if (!xs.length) return { min: 0, max: 1 }` guard in `rng`. -/
def rngMin : List ℚ → ℚ
  | [] => 0
  | a :: t => t.foldl min a

/-- `Math.max(...xs)`; `1` for the empty list (see `rng` in `lib/mcda.ts`). -/
def rngMax : List ℚ → ℚ
  | [] => 1
  | a :: t => t.foldl max a

/-- `rng` from `lib/mcda.ts`.  The `Number.isFinite` filter is the identity in
the rational model (every rational is finite). -/
def rng (vals : List ℚ) : MRange := ⟨rngMin vals, rngMax vals⟩

/-- `mm` from `lib/mcda.ts`: benefit-direction min–max normalisation. -/
def mm (x : ℚ) (r : MRange) : ℚ :=
  if r.rmax = r.rmin then 1/2 else (x - r.rmin) / (r.rmax - r.rmin)

/-- `mmInv` from `lib/mcda.ts`: cost-direction (inverted) normalisation. -/
def mmInv (x : ℚ) (r : MRange) : ℚ :=
  if r.rmax = r.rmin then 1/2 else (r.rmax - x) / (r.rmax - r.rmin)

/-- `MCDAInput` from `lib/mcda.ts`. -/
structure MCDAInput where
  la : String
  growth65 : ℚ
  oadr : ℚ
  dwellingsPer1k65 : ℚ
  medianIncome : ℚ
  grantsPer65 : ℚ
  ruralIndex : Option ℚ := none
deriving DecidableEq

/-- `Weights` from `lib/mcda.ts`. -/
structure Weights where
  wGrowth : ℚ
  wOadr : ℚ
  wHousingInv : ℚ
  wIncomeInv : ℚ
  wGrantsInv : ℚ
deriving DecidableEq

/-- `Options` from `lib/mcda.ts`; the three optional fields keep their
`undefined`-ness since the code distinguishes `?? 0` / `?? 1` defaults. -/
structure MCDAOptions where
  ruralUplift : Option ℚ := none
  floorEUR : Option ℚ := none
  capShare : Option ℚ := none
  budgetEUR : ℚ
deriving DecidableEq

/-- The five per-indicator ranges computed at the top of `scoreAndAllocate`. -/
structure IndRanges where
  gR : MRange
  oR : MRange
  hR : MRange
  iR : MRange
  eR : MRange

/-- The ranges of the five indicator columns of `rows`. -/
def rangesOf (rows : List MCDAInput) : IndRanges :=
  ⟨rng (rows.map MCDAInput.growth65), rng (rows.map MCDAInput.oadr),
   rng (rows.map MCDAInput.dwellingsPer1k65), rng (rows.map MCDAInput.medianIncome),
   rng (rows.map MCDAInput.grantsPer65)⟩

/-- The weighted sum of normalised indicators for one row (the `let score =`
expression in `scoreAndAllocate`, before the rural uplift). -/
def baseScore (w : Weights) (rs : IndRanges) (r : MCDAInput) : ℚ :=
  w.wGrowth * mm r.growth65 rs.gR +
  w.wOadr * mm r.oadr rs.oR +
  w.wHousingInv * mmInv r.dwellingsPer1k65 rs.hR +
  w.wIncomeInv * mmInv r.medianIncome rs.iR +
  w.wGrantsInv * mmInv r.grantsPer65 rs.eR

/-- One item's composite score: base score, then
`if (opt.ruralUplift && opt.ruralUplift > 0) score *= (1 + opt.ruralUplift * ri)`
with `ri` the rural index clamped to `[0,1]` (`?? 0` when absent).  The JS
guard `opt.ruralUplift && opt.ruralUplift > 0` holds exactly when the supplied
uplift is positive. -/
def itemScore (w : Weights) (opt : MCDAOptions) (rs : IndRanges) (r : MCDAInput) : ℚ :=
  if 0 < opt.ruralUplift.getD 0 then
    baseScore w rs r *
      (1 + opt.ruralUplift.getD 0 * max 0 (min 1 (r.ruralIndex.getD 0)))
  else baseScore w rs r

/-- The scores of `items` in `scoreAndAllocate`, in row order. -/
def itemScores (rows : List MCDAInput) (w : Weights) (opt : MCDAOptions) : List ℚ :=
  rows.map (itemScore w opt (rangesOf rows))

/-- `totalScore = items.reduce(...) || 1`. -/
def totalScoreOf (rows : List MCDAInput) (w : Weights) (opt : MCDAOptions) : ℚ :=
  if (itemScores rows w opt).sum = 0 then 1 else (itemScores rows w opt).sum

/-- One output row of `scoreAndAllocate`. -/
structure AllocRow where
  la : String
  score : ℚ
  share : ℚ
  eur : ℚ
deriving DecidableEq

/-- The rows of `allocs` right after the share computation (`eur` still 0). -/
def sharedAllocs (rows : List MCDAInput) (w : Weights) (opt : MCDAOptions) : List AllocRow :=
  rows.map (fun r =>
    ⟨r.la, itemScore w opt (rangesOf rows) r,
     itemScore w opt (rangesOf rows) r / totalScoreOf rows w opt, 0⟩)

/-- `const floor = Math.max(0, opt.floorEUR ?? 0)`. -/
def floorOfOpt (opt : MCDAOptions) : ℚ := max 0 (opt.floorEUR.getD 0)

/-- `const cap = Math.max(0, Math.min(1, opt.capShare ?? 1))`. -/
def capOfOpt (opt : MCDAOptions) : ℚ := max 0 (min 1 (opt.capShare.getD 1))

/-- The rows after `eur = Math.min(Math.max(share*B, floor), cap*B)`. -/
def clampedAllocs (rows : List MCDAInput) (w : Weights) (opt : MCDAOptions) : List AllocRow :=
  (sharedAllocs rows w opt).map (fun a =>
    ⟨a.la, a.score, a.share,
     min (max (a.share * opt.budgetEUR) (floorOfOpt opt)) (capOfOpt opt * opt.budgetEUR)⟩)

/-- `const spent = allocs.reduce((s,a) => s + a.eur, 0)`. -/
def spentOf (rows : List MCDAInput) (w : Weights) (opt : MCDAOptions) : ℚ :=
  ((clampedAllocs rows w opt).map AllocRow.eur).sum

/-- `const rem = Math.max(0, B - spent)`. -/
def remOf (rows : List MCDAInput) (w : Weights) (opt : MCDAOptions) : ℚ :=
  max 0 (opt.budgetEUR - spentOf rows w opt)

/-- `const roomTotal = room.reduce((s,r) => s + Math.max(0, r.room), 0)` (before `|| 1`). -/
def roomTotal0Of (rows : List MCDAInput) (w : Weights) (opt : MCDAOptions) : ℚ :=
  ((clampedAllocs rows w opt).map
    (fun a => max 0 (capOfOpt opt * opt.budgetEUR - a.eur))).sum

/-- The allocation list of `scoreAndAllocate` before `Math.round` and the final
sort: proportional shares, then — when `opt.floorEUR || opt.capShare` is truthy
— the clamp `min(max(share·B, floor), cap·B)` followed by a top-up of the
remaining budget in proportion to each row's head-room below the cap.
The `room.find(x => x.la === a.la)` lookup is modelled positionally (region
keys are unique within a run, spec §3). -/
def preAllocs (rows : List MCDAInput) (w : Weights) (opt : MCDAOptions) : List AllocRow :=
  if otruthy opt.floorEUR || otruthy opt.capShare then
    (clampedAllocs rows w opt).map (fun a =>
      ⟨a.la, a.score, a.share,
       a.eur + max 0 (capOfOpt opt * opt.budgetEUR - a.eur) /
         (if roomTotal0Of rows w opt = 0 then 1 else roomTotal0Of rows w opt) *
         remOf rows w opt⟩)
  else
    (sharedAllocs rows w opt).map (fun a => ⟨a.la, a.score, a.share, a.share * opt.budgetEUR⟩)

/-- The rows of `scoreAndAllocate` after `Math.round(a.eur)`, still in input
order (before the final sort). -/
def roundedAllocs (rows : List MCDAInput) (w : Weights) (opt : MCDAOptions) : List AllocRow :=
  (preAllocs rows w opt).map (fun a => { a with eur := jsRound a.eur })

/-- `scoreAndAllocate` from `lib/mcda.ts`: rounded rows sorted by descending
`eur` (the JS comparator `(x, y) => y.eur - x.eur`; JS `sort` is stable, as is
`mergeSort`). -/
def scoreAndAllocate (rows : List MCDAInput) (w : Weights) (opt : MCDAOptions) : List AllocRow :=
  (roundedAllocs rows w opt).mergeSort (fun x y => decide (y.eur ≤ x.eur))

/-- The rounded euro figure of the region at input position `i` (0 when out of
range); used to state per-region monotonicity. -/
def eurAtIdx (rows : List MCDAInput) (w : Weights) (opt : MCDAOptions) (i : ℕ) : ℚ :=
  match (roundedAllocs rows w opt)[i]? with
  | some a => a.eur
  | none => 0

/-! ## app/mcda/page.tsx : `allocateBudget` -/

/-- The options record taken by `allocateBudget` in `app/mcda/page.tsx`. -/
structure AllocOpts where
  maxShare : ℚ
  minEuro : ℚ
  ruralUplift : ℚ
deriving DecidableEq

/-- The boosted score of one region: `b = Math.max(0, scores[n] ?? 0)` and then
`boosted[n] = ruralSet.has(n) ? b * (1 + ruralUplift) : b`.  A region is a pair
(score, membership of `ruralSet`). -/
def boosted1 (uplift : ℚ) (p : ℚ × Bool) : ℚ :=
  if p.2 then max 0 p.1 * (1 + uplift) else max 0 p.1

/-- All boosted scores, in key order. -/
def boostedOf (uplift : ℚ) (scores : List (ℚ × Bool)) : List ℚ :=
  scores.map (boosted1 uplift)

/-- Floor pass state: (boosted score, current allocation) per region. -/
abbrev AllocSt := ℚ × ℚ

/-- `if (alloc[n] < minEuro) { deficit += minEuro - alloc[n]; ... }`. -/
def deficitOf (m : ℚ) (l : List AllocSt) : ℚ :=
  (l.map (fun p => if p.2 < m then m - p.2 else 0)).sum

/-- `... alloc[n] = minEuro` for every region below the floor. -/
def floorRaiseP (m : ℚ) (l : List AllocSt) : List AllocSt :=
  l.map (fun p => (p.1, if p.2 < m then m else p.2))

/-- `pool = donors.reduce((s,n) => s + (alloc[n] - minEuro), 0)` where
`donors = names.filter(n => alloc[n] > minEuro)`. -/
def poolOf (m : ℚ) (l : List AllocSt) : ℚ :=
  (l.map (fun p => if m < p.2 then p.2 - m else 0)).sum

/-- `for (const n of donors) alloc[n] -= (alloc[n]-minEuro)/pool * deficit`. -/
def recoverP (m pool d : ℚ) (l : List AllocSt) : List AllocSt :=
  l.map (fun p => (p.1, if m < p.2 then p.2 - (p.2 - m) / pool * d else p.2))

/-- The floor block of `allocateBudget`: raise to the floor, then recover the
deficit from donors in proportion to their surplus (`pool` guarded by `|| 1`). -/
def floorPassP (m : ℚ) (l : List AllocSt) : List AllocSt :=
  if 0 < deficitOf m l then
    recoverP m
      (if poolOf m (floorRaiseP m l) = 0 then 1 else poolOf m (floorRaiseP m l))
      (deficitOf m l) (floorRaiseP m l)
  else floorRaiseP m l

/-- `const cap = budget * Math.max(0, Math.min(1, opts.maxShare || 1))`. -/
def capVal (budget ms : ℚ) : ℚ :=
  budget * max 0 (min 1 (if ms = 0 then 1 else ms))

/-- `if (alloc[n] > cap) { excess += alloc[n] - cap; ... }`. -/
def excessOf (c : ℚ) (l : List AllocSt) : ℚ :=
  (l.map (fun p => if c < p.2 then p.2 - c else 0)).sum

/-- `... alloc[n] = cap` for every region above the cap. -/
def clipP (c : ℚ) (l : List AllocSt) : List AllocSt :=
  l.map (fun p => (p.1, if c < p.2 then c else p.2))

/-- `receivers.length` where `receivers = names.filter(n => alloc[n] < cap)`. -/
def recvCount (c : ℚ) (l : List AllocSt) : ℕ :=
  (l.filter (fun p => p.2 < c)).length

/-- `wsum = receivers.reduce((s,n) => s + boosted[n], 0)` (before `|| len`). -/
def wsumOf (c : ℚ) (l : List AllocSt) : ℚ :=
  (l.map (fun p => if p.2 < c then p.1 else 0)).sum

/-- `alloc[n] += (wsum ? boosted[n]/wsum : 1/receivers.length) * excess` for
every receiver. -/
def distributeP (c w len e : ℚ) (l : List AllocSt) : List AllocSt :=
  l.map (fun p => (p.1, if p.2 < c then p.2 + (if w = 0 then 1/len else p.1 / w) * e else p.2))

/-- The cap block of `allocateBudget`. -/
def capPassP (c : ℚ) (l : List AllocSt) : List AllocSt :=
  if 0 < excessOf c l then
    distributeP c
      (if wsumOf c (clipP c l) = 0 then (recvCount c (clipP c l) : ℚ) else wsumOf c (clipP c l))
      (recvCount c (clipP c l) : ℚ) (excessOf c l) (clipP c l)
  else clipP c l

/-- `const sum = ... || 1; const k = budget / sum; alloc[n] *= k`. -/
def renormP (budget : ℚ) (l : List ℚ) : List ℚ :=
  l.map (fun a => a * (budget / (if l.sum = 0 then 1 else l.sum)))

/-- `allocateBudget` from `app/mcda/page.tsx`.  A region is a (score, rural)
pair; the result lists the euro allocations in key order.  When the boosted
scores sum to `≤ 0` the equal-split-above-floor fallback runs; otherwise the
proportional pass feeds the floor pass, the cap pass and the final
renormalisation. -/
def allocateBudget (scores : List (ℚ × Bool)) (budget : ℚ) (o : AllocOpts) : List ℚ :=
  if (boostedOf o.ruralUplift scores).sum ≤ 0 then
    renormP budget (List.replicate scores.length
      (max 0 o.minEuro +
        max 0 ((budget - max 0 o.minEuro * (scores.length : ℚ)) / (scores.length : ℚ))))
  else
    renormP budget
      ((capPassP (capVal budget o.maxShare)
        (floorPassP o.minEuro
          ((boostedOf o.ruralUplift scores).map
            (fun b => (b, b / (boostedOf o.ruralUplift scores).sum * budget))))).map Prod.snd)

/-! ## Generic list-sum helpers -/

theorem sum_map_add {α : Type} (l : List α) (f g : α → ℚ) :
    (l.map fun a => f a + g a).sum = (l.map f).sum + (l.map g).sum := by
  induction l with
  | nil => simp
  | cons a t ih => simp only [List.map_cons, List.sum_cons, ih]; ring

theorem sum_map_sub {α : Type} (l : List α) (f g : α → ℚ) :
    (l.map fun a => f a - g a).sum = (l.map f).sum - (l.map g).sum := by
  induction l with
  | nil => simp
  | cons a t ih => simp only [List.map_cons, List.sum_cons, ih]; ring

theorem sum_map_factor {α : Type} (l : List α) (f : α → ℚ) (c : ℚ) :
    (l.map fun a => f a * c).sum = (l.map f).sum * c := by
  induction l with
  | nil => simp
  | cons a t ih => simp only [List.map_cons, List.sum_cons, ih]; ring

theorem sum_map_const {α : Type} (l : List α) (c : ℚ) :
    (l.map fun _ => c).sum = c * l.length := by
  induction l with
  | nil => simp
  | cons a t ih => simp only [List.map_cons, List.sum_cons, ih, List.length_cons]; push_cast; ring

theorem sum_map_nonneg {α : Type} {l : List α} {f : α → ℚ} (h : ∀ a ∈ l, 0 ≤ f a) :
    0 ≤ (l.map f).sum := by
  apply List.sum_nonneg
  intro x hx
  obtain ⟨a, ha, rfl⟩ := List.mem_map.1 hx
  exact h a ha

theorem le_sum_map {α : Type} {l : List α} {f : α → ℚ} (h : ∀ a ∈ l, 0 ≤ f a) :
    ∀ a ∈ l, f a ≤ (l.map f).sum := by
  induction l with
  | nil => simp
  | cons b t ih =>
    intro a ha
    simp only [List.map_cons, List.sum_cons]
    rcases List.mem_cons.1 ha with rfl | ha'
    · have : 0 ≤ (t.map f).sum := sum_map_nonneg (fun x hx => h x (List.mem_cons_of_mem _ hx))
      linarith
    · have h1 : 0 ≤ f b := h b (List.mem_cons_self _ _)
      have h2 := ih (fun x hx => h x (List.mem_cons_of_mem _ hx)) a ha'
      linarith

theorem sum_map_eq_zero {α : Type} {l : List α} {f : α → ℚ} (h : ∀ a ∈ l, 0 ≤ f a)
    (hs : (l.map f).sum = 0) : ∀ a ∈ l, f a = 0 := by
  intro a ha
  have h1 := le_sum_map h a ha
  have h2 := h a ha
  linarith [hs ▸ h1]

theorem sum_map_nonpos {α : Type} {l : List α} {f : α → ℚ} (h : ∀ a ∈ l, f a ≤ 0) :
    (l.map f).sum ≤ 0 := by
  induction l with
  | nil => simp
  | cons a t ih =>
    simp only [List.map_cons, List.sum_cons]
    have h1 := h a (List.mem_cons_self _ _)
    have h2 := ih (fun x hx => h x (List.mem_cons_of_mem _ hx))
    linarith

theorem exists_pos_of_sum_pos {α : Type} {l : List α} {f : α → ℚ}
    (hs : 0 < (l.map f).sum) : ∃ a ∈ l, 0 < f a := by
  by_contra hc
  push_neg at hc
  have h := sum_map_nonpos hc
  linarith

/-! ## Lemmas about the floor pass of `allocateBudget` -/

theorem deficitOf_nonneg (m : ℚ) (l : List AllocSt) : 0 ≤ deficitOf m l := by
  apply sum_map_nonneg
  intro p _
  dsimp only
  split <;> linarith

theorem floorRaiseP_snd_sum (m : ℚ) (l : List AllocSt) :
    ((floorRaiseP m l).map Prod.snd).sum = (l.map Prod.snd).sum + deficitOf m l := by
  unfold floorRaiseP deficitOf
  rw [List.map_map]
  have h : l.map (Prod.snd ∘ fun p : AllocSt => (p.1, if p.2 < m then m else p.2)) =
      l.map (fun p => p.2 + (if p.2 < m then m - p.2 else 0)) := by
    apply List.map_congr_left
    intro p _
    simp only [Function.comp]
    split <;> ring
  rw [h, sum_map_add]

theorem floorRaiseP_ge (m : ℚ) (l : List AllocSt) : ∀ p ∈ floorRaiseP m l, m ≤ p.2 := by
  intro p hp
  obtain ⟨q, _, rfl⟩ := List.mem_map.1 hp
  dsimp only
  split
  · exact le_refl m
  · exact le_of_not_lt (by assumption)

theorem floorRaiseP_fst (m : ℚ) (l : List AllocSt) :
    (floorRaiseP m l).map Prod.fst = l.map Prod.fst := by
  unfold floorRaiseP
  rw [List.map_map]
  rfl

theorem floorRaiseP_length (m : ℚ) (l : List AllocSt) :
    (floorRaiseP m l).length = l.length := by
  unfold floorRaiseP; rw [List.length_map]

theorem poolOf_eq_of_ge (m : ℚ) (l : List AllocSt) (h : ∀ p ∈ l, m ≤ p.2) :
    poolOf m l = (l.map Prod.snd).sum - m * l.length := by
  unfold poolOf
  have h1 : l.map (fun p : AllocSt => if m < p.2 then p.2 - m else 0) =
      l.map (fun p => p.2 - m) := by
    apply List.map_congr_left
    intro p hp
    dsimp only
    split
    · rfl
    · have h2 : p.2 = m := le_antisymm (le_of_not_lt (by assumption)) (h p hp)
      rw [h2]; ring
  rw [h1]
  have h3 : l.map (fun p : AllocSt => p.2 - m) =
      l.map (fun p => Prod.snd p - (fun _ : AllocSt => m) p) := rfl
  rw [h3, sum_map_sub, sum_map_const]

theorem recoverP_snd_sum (m p0 d : ℚ) (l : List AllocSt) :
    ((recoverP m p0 d l).map Prod.snd).sum = (l.map Prod.snd).sum - poolOf m l * (d / p0) := by
  unfold recoverP poolOf
  rw [List.map_map]
  have h : l.map (Prod.snd ∘ fun p : AllocSt => (p.1, if m < p.2 then p.2 - (p.2 - m) / p0 * d else p.2)) =
      l.map (fun p => p.2 - (if m < p.2 then p.2 - m else 0) * (d / p0)) := by
    apply List.map_congr_left
    intro p _
    simp only [Function.comp]
    split <;> ring
  rw [h, sum_map_sub, sum_map_factor]

theorem recoverP_ge (m p0 d : ℚ) (l : List AllocSt) (hp0 : 0 < p0) (hdp : d ≤ p0)
    (_hd : 0 ≤ d) (h : ∀ p ∈ l, m ≤ p.2) : ∀ p ∈ recoverP m p0 d l, m ≤ p.2 := by
  intro p hp
  obtain ⟨q, hq, rfl⟩ := List.mem_map.1 hp
  dsimp only
  split
  · rename_i hlt
    have h1 : (q.2 - m) / p0 * d ≤ q.2 - m := by
      rw [div_mul_eq_mul_div, div_le_iff₀ hp0]
      exact mul_le_mul_of_nonneg_left hdp (by linarith)
    linarith
  · exact h q hq

theorem recoverP_fst (m p0 d : ℚ) (l : List AllocSt) :
    (recoverP m p0 d l).map Prod.fst = l.map Prod.fst := by
  unfold recoverP
  rw [List.map_map]
  rfl

theorem recoverP_length (m p0 d : ℚ) (l : List AllocSt) :
    (recoverP m p0 d l).length = l.length := by
  unfold recoverP; rw [List.length_map]

theorem floorPassP_ge (m : ℚ) (l : List AllocSt)
    (hmn : m * l.length ≤ (l.map Prod.snd).sum) :
    ∀ p ∈ floorPassP m l, m ≤ p.2 := by
  unfold floorPassP
  split
  · rename_i hd
    have hr := floorRaiseP_ge m l
    have hpool : poolOf m (floorRaiseP m l) =
        (l.map Prod.snd).sum + deficitOf m l - m * l.length := by
      rw [poolOf_eq_of_ge m _ hr, floorRaiseP_snd_sum, floorRaiseP_length]
    have hdp : deficitOf m l ≤ poolOf m (floorRaiseP m l) := by rw [hpool]; linarith
    have hp0 : 0 < poolOf m (floorRaiseP m l) := lt_of_lt_of_le hd hdp
    rw [if_neg (ne_of_gt hp0)]
    exact recoverP_ge m _ _ _ hp0 hdp (le_of_lt hd) hr
  · exact floorRaiseP_ge m l

theorem floorPassP_sum (m : ℚ) (l : List AllocSt)
    (hmn : m * l.length ≤ (l.map Prod.snd).sum) :
    ((floorPassP m l).map Prod.snd).sum = (l.map Prod.snd).sum := by
  unfold floorPassP
  split
  · rename_i hd
    have hr := floorRaiseP_ge m l
    have hpool : poolOf m (floorRaiseP m l) =
        (l.map Prod.snd).sum + deficitOf m l - m * l.length := by
      rw [poolOf_eq_of_ge m _ hr, floorRaiseP_snd_sum, floorRaiseP_length]
    have hdp : deficitOf m l ≤ poolOf m (floorRaiseP m l) := by rw [hpool]; linarith
    have hp0 : 0 < poolOf m (floorRaiseP m l) := lt_of_lt_of_le hd hdp
    rw [if_neg (ne_of_gt hp0), recoverP_snd_sum, floorRaiseP_snd_sum,
      mul_div_cancel₀ _ (ne_of_gt hp0)]
    ring
  · rename_i hd
    have h0 : deficitOf m l = 0 := le_antisymm (le_of_not_lt hd) (deficitOf_nonneg m l)
    rw [floorRaiseP_snd_sum, h0, add_zero]

theorem floorPassP_fst (m : ℚ) (l : List AllocSt) :
    (floorPassP m l).map Prod.fst = l.map Prod.fst := by
  unfold floorPassP
  split
  · rw [recoverP_fst, floorRaiseP_fst]
  · exact floorRaiseP_fst m l

theorem floorPassP_length (m : ℚ) (l : List AllocSt) :
    (floorPassP m l).length = l.length := by
  unfold floorPassP
  split
  · rw [recoverP_length, floorRaiseP_length]
  · exact floorRaiseP_length m l

/-! ## Lemmas about the cap pass of `allocateBudget` -/

theorem excessOf_nonneg (c : ℚ) (l : List AllocSt) : 0 ≤ excessOf c l := by
  apply sum_map_nonneg
  intro p _
  dsimp only
  split <;> linarith

theorem clipP_snd_sum (c : ℚ) (l : List AllocSt) :
    ((clipP c l).map Prod.snd).sum = (l.map Prod.snd).sum - excessOf c l := by
  unfold clipP excessOf
  rw [List.map_map]
  have h : l.map (Prod.snd ∘ fun p : AllocSt => (p.1, if c < p.2 then c else p.2)) =
      l.map (fun p => p.2 - (if c < p.2 then p.2 - c else 0)) := by
    apply List.map_congr_left
    intro p _
    simp only [Function.comp]
    split <;> ring
  rw [h, sum_map_sub]

theorem clipP_ge (c m : ℚ) (l : List AllocSt) (hmc : m ≤ c) (h : ∀ p ∈ l, m ≤ p.2) :
    ∀ p ∈ clipP c l, m ≤ p.2 := by
  intro p hp
  obtain ⟨q, hq, rfl⟩ := List.mem_map.1 hp
  dsimp only
  split
  · exact hmc
  · exact h q hq

theorem clipP_le (c : ℚ) (l : List AllocSt) : ∀ p ∈ clipP c l, p.2 ≤ c := by
  intro p hp
  obtain ⟨q, _, rfl⟩ := List.mem_map.1 hp
  dsimp only
  split
  · exact le_refl c
  · exact le_of_not_lt (by assumption)

theorem clipP_fst_nonneg (c : ℚ) (l : List AllocSt) (h : ∀ p ∈ l, 0 ≤ p.1) :
    ∀ p ∈ clipP c l, 0 ≤ p.1 := by
  intro p hp
  obtain ⟨q, hq, rfl⟩ := List.mem_map.1 hp
  exact h q hq

theorem wsumOf_nonneg (c : ℚ) (l : List AllocSt) (h : ∀ p ∈ l, 0 ≤ p.1) :
    0 ≤ wsumOf c l := by
  apply sum_map_nonneg
  intro p hp
  dsimp only
  split
  · exact h p hp
  · exact le_refl 0

theorem recvCount_pos_of_mem (c : ℚ) (l : List AllocSt) {p : AllocSt}
    (hp : p ∈ l) (hlt : p.2 < c) : 0 < recvCount c l := by
  unfold recvCount
  apply List.length_pos.2
  intro hnil
  have h : p ∈ l.filter (fun q => decide (q.2 < c)) := by
    apply List.mem_filter.2
    exact ⟨hp, by simpa using hlt⟩
  rw [hnil] at h
  exact absurd h (List.not_mem_nil p)

/-- The total amount added back to receivers by `distributeP`. -/
def addedSum (c w len e : ℚ) (l : List AllocSt) : ℚ :=
  (l.map (fun p => if p.2 < c then (if w = 0 then 1 / len else p.1 / w) * e else 0)).sum

theorem distributeP_add (c w len e : ℚ) (l : List AllocSt) :
    ((distributeP c w len e l).map Prod.snd).sum = (l.map Prod.snd).sum + addedSum c w len e l := by
  unfold distributeP addedSum
  rw [List.map_map]
  have h : l.map (Prod.snd ∘ fun p : AllocSt =>
      (p.1, if p.2 < c then p.2 + (if w = 0 then 1 / len else p.1 / w) * e else p.2)) =
      l.map (fun p => p.2 + (if p.2 < c then (if w = 0 then 1 / len else p.1 / w) * e else 0)) := by
    apply List.map_congr_left
    intro p _
    simp only [Function.comp]
    split <;> ring
  rw [h, sum_map_add]

theorem addedSum_nonneg (c w len e : ℚ) (l : List AllocSt)
    (he : 0 ≤ e) (hw : 0 ≤ w) (hlen : 0 ≤ len) (hfst : ∀ p ∈ l, 0 ≤ p.1) :
    0 ≤ addedSum c w len e l := by
  apply sum_map_nonneg
  intro p hp
  dsimp only
  split
  · apply mul_nonneg _ he
    split
    · positivity
    · exact div_nonneg (hfst p hp) hw
  · exact le_refl 0

theorem addedSum_eq_excess (c len e : ℚ) (l : List AllocSt) (hw0 : wsumOf c l ≠ 0) :
    addedSum c (wsumOf c l) len e l = e := by
  unfold addedSum
  have hcongr : l.map (fun p : AllocSt =>
      if p.2 < c then (if wsumOf c l = 0 then 1 / len else p.1 / wsumOf c l) * e else 0) =
      l.map (fun p => (if p.2 < c then p.1 else 0) * (e / wsumOf c l)) := by
    apply List.map_congr_left
    intro p _
    rw [if_neg hw0]
    split <;> ring
  rw [hcongr, sum_map_factor]
  show wsumOf c l * (e / wsumOf c l) = e
  field_simp

theorem addedSum_eq_zero (c e : ℚ) (l : List AllocSt)
    (hfst : ∀ p ∈ l, 0 ≤ p.1) (hw0 : wsumOf c l = 0) :
    addedSum c ((recvCount c l : ℚ)) ((recvCount c l : ℚ)) e l = 0 := by
  unfold addedSum
  have hz : ∀ p ∈ l, (if p.2 < c then p.1 else 0) = 0 := by
    apply sum_map_eq_zero _ hw0
    intro p hp
    dsimp only
    split
    · exact hfst p hp
    · exact le_refl 0
  have hcongr : ∀ p ∈ l, (if p.2 < c then
      (if ((recvCount c l : ℕ) : ℚ) = 0 then 1 / ((recvCount c l : ℕ) : ℚ)
        else p.1 / ((recvCount c l : ℕ) : ℚ)) * e else 0) = 0 := by
    intro p hp
    split
    · rename_i hplt
      have hlenpos : 0 < recvCount c l := recvCount_pos_of_mem c l hp hplt
      have hlenne : ((recvCount c l : ℕ) : ℚ) ≠ 0 := by
        exact_mod_cast Nat.pos_iff_ne_zero.1 hlenpos
      rw [if_neg hlenne]
      have hp1 : p.1 = 0 := by
        have h := hz p hp
        rwa [if_pos hplt] at h
      rw [hp1]
      simp
    · rfl
  calc (l.map _).sum = (l.map (fun _ => (0:ℚ))).sum := congrArg _ (List.map_congr_left hcongr)
    _ = 0 := by rw [sum_map_const]; ring

theorem distributeP_ge_base (c w len e : ℚ) (l : List AllocSt)
    (he : 0 ≤ e) (hw : 0 ≤ w) (hlen : 0 ≤ len) (hfst : ∀ p ∈ l, 0 ≤ p.1)
    {m : ℚ} (h : ∀ p ∈ l, m ≤ p.2) : ∀ p ∈ distributeP c w len e l, m ≤ p.2 := by
  intro p hp
  obtain ⟨q, hq, rfl⟩ := List.mem_map.1 hp
  dsimp only
  split
  · have hadd : 0 ≤ (if w = 0 then 1 / len else q.1 / w) * e := by
      apply mul_nonneg _ he
      split
      · positivity
      · exact div_nonneg (hfst q hq) hw
    have := h q hq
    linarith
  · exact h q hq

theorem capPassP_eq_allcap (c m : ℚ) (l : List AllocSt) (hcm : c < m)
    (hge : ∀ p ∈ l, m ≤ p.2) : capPassP c l = l.map (fun p => (p.1, c)) := by
  have hcl : clipP c l = l.map (fun p => (p.1, c)) := by
    unfold clipP
    apply List.map_congr_left
    intro p hp
    have h1 : c < p.2 := lt_of_lt_of_le hcm (hge p hp)
    simp [h1]
  unfold capPassP
  rw [hcl]
  split
  · unfold distributeP
    rw [List.map_map]
    apply List.map_congr_left
    intro p _
    simp only [Function.comp]
    rw [if_neg (lt_irrefl c)]
  · rfl

theorem capPassP_main (c m : ℚ) (l : List AllocSt)
    (hm0 : 0 ≤ m) (hmc : m ≤ c) (hc : 0 < c)
    (hge : ∀ p ∈ l, m ≤ p.2) (hfst : ∀ p ∈ l, 0 ≤ p.1)
    (hS : 0 < (l.map Prod.snd).sum) :
    (∀ p ∈ capPassP c l, m ≤ p.2) ∧
    ((capPassP c l).map Prod.snd).sum ≤ (l.map Prod.snd).sum ∧
    0 < ((capPassP c l).map Prod.snd).sum := by
  have hclge : ∀ p ∈ clipP c l, m ≤ p.2 := clipP_ge c m l hmc hge
  have hclfst : ∀ p ∈ clipP c l, 0 ≤ p.1 := clipP_fst_nonneg c l hfst
  have hclsum : ((clipP c l).map Prod.snd).sum = (l.map Prod.snd).sum - excessOf c l :=
    clipP_snd_sum c l
  have he0 : 0 ≤ excessOf c l := excessOf_nonneg c l
  unfold capPassP
  split
  · rename_i hepos
    have hw00 : 0 ≤ wsumOf c (clipP c l) := wsumOf_nonneg c _ hclfst
    have hlen0 : (0:ℚ) ≤ (recvCount c (clipP c l) : ℚ) := by positivity
    have hw : (0:ℚ) ≤ if wsumOf c (clipP c l) = 0 then (recvCount c (clipP c l) : ℚ)
        else wsumOf c (clipP c l) := by
      split
      · exact hlen0
      · exact hw00
    refine ⟨distributeP_ge_base c _ _ _ (clipP c l) (le_of_lt hepos) hw hlen0 hclfst hclge,
      ?_, ?_⟩ <;> rw [distributeP_add] <;> by_cases hw0 : wsumOf c (clipP c l) = 0
    · -- all receivers have zero boosted score: nothing is added back
      rw [if_pos hw0, addedSum_eq_zero c _ _ hclfst hw0, hclsum]
      linarith
    · -- receivers carry positive weight: exactly the excess is added back
      rw [if_neg hw0, addedSum_eq_excess c _ _ _ hw0, hclsum]
      linarith
    · -- positivity when the excess is dropped: a clipped element sits at the cap
      rw [if_pos hw0, addedSum_eq_zero c _ _ hclfst hw0, add_zero]
      obtain ⟨q, hq, hqpos⟩ := exists_pos_of_sum_pos (f := fun p : AllocSt =>
        if c < p.2 then p.2 - c else 0) (by exact hepos)
      have hqlt : c < q.2 := by
        by_contra hno
        rw [if_neg hno] at hqpos
        exact lt_irrefl 0 hqpos
      have hmemc : (q.1, c) ∈ clipP c l := by
        unfold clipP
        apply List.mem_map.2
        exact ⟨q, hq, by rw [if_pos hqlt]⟩
      have h1 : c ≤ ((clipP c l).map Prod.snd).sum := by
        have h2 := le_sum_map (f := Prod.snd) (l := clipP c l)
          (by intro p hp; exact le_trans hm0 (hclge p hp)) (q.1, c) hmemc
        simpa using h2
      linarith
    · rw [if_neg hw0, addedSum_eq_excess c _ _ _ hw0, hclsum]
      linarith
  · rename_i heneg
    have he : excessOf c l = 0 := le_antisymm (le_of_not_lt heneg) he0
    exact ⟨hclge, by rw [hclsum, he]; linarith, by rw [hclsum, he]; linarith⟩

theorem capPassP_snd_mem_fst (c : ℚ) (l : List AllocSt) :
    (capPassP c l).map Prod.fst = l.map Prod.fst := by
  unfold capPassP distributeP clipP
  split <;> rw [List.map_map] <;> try rw [List.map_map]
  · rfl
  · rfl

/-! ## The final renormalisation -/

theorem renormP_sum (B : ℚ) (l : List ℚ) (h : l.sum ≠ 0) : (renormP B l).sum = B := by
  unfold renormP
  rw [if_neg h]
  have h1 : l.map (fun a => a * (B / l.sum)) = l.map (fun a => (fun x : ℚ => x) a * (B / l.sum)) := rfl
  rw [h1, sum_map_factor]
  have h2 : (l.map fun x : ℚ => x).sum = l.sum := by rw [List.map_id']
  rw [h2]
  field_simp

theorem renormP_mem (B : ℚ) (l : List ℚ) {y : ℚ} (hy : y ∈ renormP B l) :
    ∃ a ∈ l, y = a * (B / (if l.sum = 0 then 1 else l.sum)) := by
  obtain ⟨a, ha, rfl⟩ := List.mem_map.1 hy
  exact ⟨a, ha, rfl⟩

theorem renormP_mem_ge (B : ℚ) (l : List ℚ) (h1 : 0 < l.sum) (h2 : l.sum ≤ B)
    {m : ℚ} (hm : ∀ x ∈ l, m ≤ x) (hm0 : 0 ≤ m) :
    ∀ y ∈ renormP B l, m ≤ y := by
  intro y hy
  obtain ⟨a, ha, rfl⟩ := renormP_mem B l hy
  rw [if_neg (ne_of_gt h1)]
  have hk : 1 ≤ B / l.sum := (one_le_div h1).2 h2
  have ha0 : 0 ≤ a := le_trans hm0 (hm a ha)
  calc m ≤ a := hm a ha
    _ = a * 1 := by ring
    _ ≤ a * (B / l.sum) := mul_le_mul_of_nonneg_left hk ha0

/-! ## Boosted scores and the cap value -/

theorem boostedOf_nonneg (u : ℚ) (hu : 0 ≤ u) (scores : List (ℚ × Bool)) :
    ∀ b ∈ boostedOf u scores, 0 ≤ b := by
  intro b hb
  obtain ⟨p, _, rfl⟩ := List.mem_map.1 hb
  unfold boosted1
  split
  · apply mul_nonneg (le_max_left 0 p.1)
    linarith
  · exact le_max_left 0 p.1

theorem capVal_pos (budget ms : ℚ) (hb : 0 < budget) (hms : 0 ≤ ms) :
    0 < capVal budget ms := by
  unfold capVal
  apply mul_pos hb
  by_cases h : ms = 0
  · rw [if_pos h]
    norm_num
  · rw [if_neg h]
    have hms' : 0 < ms := lt_of_le_of_ne hms (Ne.symm h)
    have h1 : 0 < min 1 ms := lt_min one_pos hms'
    rw [max_eq_right (le_of_lt h1)]
    exact h1

/-! ## Main invariants of `allocateBudget` -/

/-- Under the spec's validity constraints (positive budget, non-negative floor,
uplift and cap share, floor × regions ≤ budget, at least one region),
`allocateBudget` conserves the budget exactly and keeps every region at or
above the floor (hence non-negative). -/
theorem allocateBudget_spec (scores : List (ℚ × Bool)) (budget : ℚ) (o : AllocOpts)
    (hne : scores ≠ []) (hb : 0 < budget) (hm : 0 ≤ o.minEuro)
    (hmn : o.minEuro * (scores.length : ℚ) ≤ budget)
    (hu : 0 ≤ o.ruralUplift) (hms : 0 ≤ o.maxShare) :
    (allocateBudget scores budget o).sum = budget ∧
    ∀ x ∈ allocateBudget scores budget o, o.minEuro ≤ x ∧ 0 ≤ x := by
  have hlen : 0 < scores.length := List.length_pos.2 hne
  have hlenq : (0:ℚ) < (scores.length : ℚ) := by exact_mod_cast hlen
  unfold allocateBudget
  split
  · -- fallback branch: every region gets budget / N after renormalisation
    have hfloor : max 0 o.minEuro = o.minEuro := max_eq_right hm
    have heven : max 0 ((budget - max 0 o.minEuro * (scores.length : ℚ)) / (scores.length : ℚ)) =
        (budget - o.minEuro * (scores.length : ℚ)) / (scores.length : ℚ) := by
      rw [hfloor]
      apply max_eq_right
      apply div_nonneg _ (le_of_lt hlenq)
      linarith
    have hc0 : max 0 o.minEuro +
        max 0 ((budget - max 0 o.minEuro * (scores.length : ℚ)) / (scores.length : ℚ)) =
        budget / (scores.length : ℚ) := by
      rw [heven, hfloor]
      field_simp
    rw [hc0]
    have hrep : (List.replicate scores.length (budget / (scores.length : ℚ))).sum = budget := by
      rw [List.sum_replicate, nsmul_eq_mul]
      field_simp
    have hmB : o.minEuro ≤ budget / (scores.length : ℚ) := (le_div_iff₀ hlenq).2 hmn
    constructor
    · exact renormP_sum budget _ (by rw [hrep]; exact ne_of_gt hb)
    · intro x hx
      obtain ⟨a, ha, rfl⟩ := renormP_mem budget _ hx
      have ha' := List.eq_of_mem_replicate ha
      rw [ha', hrep, if_neg (ne_of_gt hb)]
      have hBB : budget / budget = 1 := div_self (ne_of_gt hb)
      rw [hBB, mul_one]
      exact ⟨hmB, le_trans hm hmB⟩
  · -- proportional branch
    rename_i htot
    push_neg at htot
    have hbs0 : ∀ b ∈ boostedOf o.ruralUplift scores, 0 ≤ b := boostedOf_nonneg _ hu scores
    have htne : (boostedOf o.ruralUplift scores).sum ≠ 0 := ne_of_gt htot
    -- the proportional base pass
    have hbase_sum : (((boostedOf o.ruralUplift scores).map
        (fun b => (b, b / (boostedOf o.ruralUplift scores).sum * budget))).map Prod.snd).sum
        = budget := by
      rw [List.map_map]
      have h1 : (boostedOf o.ruralUplift scores).map
          (Prod.snd ∘ fun b => (b, b / (boostedOf o.ruralUplift scores).sum * budget)) =
          (boostedOf o.ruralUplift scores).map
          (fun b => (fun x : ℚ => x) b * (budget / (boostedOf o.ruralUplift scores).sum)) := by
        apply List.map_congr_left
        intro b _
        simp only [Function.comp]
        ring
      rw [h1, sum_map_factor]
      have h2 : ((boostedOf o.ruralUplift scores).map fun x : ℚ => x).sum =
          (boostedOf o.ruralUplift scores).sum := by rw [List.map_id']
      rw [h2]
      field_simp
    have hbase_fst : ∀ p ∈ (boostedOf o.ruralUplift scores).map
        (fun b => (b, b / (boostedOf o.ruralUplift scores).sum * budget)), 0 ≤ p.1 := by
      intro p hp
      obtain ⟨b, hbmem, rfl⟩ := List.mem_map.1 hp
      exact hbs0 b hbmem
    have hbase_len : ((boostedOf o.ruralUplift scores).map
        (fun b => (b, b / (boostedOf o.ruralUplift scores).sum * budget))).length
        = scores.length := by
      rw [List.length_map]
      unfold boostedOf
      rw [List.length_map]
    -- the floor pass
    have hmn' : o.minEuro * (((boostedOf o.ruralUplift scores).map
        (fun b => (b, b / (boostedOf o.ruralUplift scores).sum * budget))).length : ℚ) ≤
        (((boostedOf o.ruralUplift scores).map
          (fun b => (b, b / (boostedOf o.ruralUplift scores).sum * budget))).map Prod.snd).sum := by
      rw [hbase_len, hbase_sum]
      exact hmn
    have hfl_ge := floorPassP_ge o.minEuro _ hmn'
    have hfl_sum := floorPassP_sum o.minEuro _ hmn'
    rw [hbase_sum] at hfl_sum
    have hfl_fst : ∀ p ∈ floorPassP o.minEuro ((boostedOf o.ruralUplift scores).map
        (fun b => (b, b / (boostedOf o.ruralUplift scores).sum * budget))), 0 ≤ p.1 := by
      intro p hp
      have h1 : p.1 ∈ (floorPassP o.minEuro ((boostedOf o.ruralUplift scores).map
          (fun b => (b, b / (boostedOf o.ruralUplift scores).sum * budget)))).map Prod.fst :=
        List.mem_map_of_mem Prod.fst hp
      rw [floorPassP_fst] at h1
      obtain ⟨q, hq, hq1⟩ := List.mem_map.1 h1
      rw [← hq1]
      exact hbase_fst q hq
    have hfl_len : (floorPassP o.minEuro ((boostedOf o.ruralUplift scores).map
        (fun b => (b, b / (boostedOf o.ruralUplift scores).sum * budget)))).length
        = scores.length := by
      rw [floorPassP_length, hbase_len]
    have hcpos : 0 < capVal budget o.maxShare := capVal_pos budget o.maxShare hb hms
    by_cases hmc : o.minEuro ≤ capVal budget o.maxShare
    · -- cap at or above the floor: capPassP_main applies
      obtain ⟨hcap_ge, hcap_le, hcap_pos⟩ := capPassP_main (capVal budget o.maxShare) o.minEuro _
        hm hmc hcpos hfl_ge hfl_fst (by rw [hfl_sum]; exact hb)
      rw [hfl_sum] at hcap_le
      have hmem_ge : ∀ x ∈ (capPassP (capVal budget o.maxShare)
          (floorPassP o.minEuro ((boostedOf o.ruralUplift scores).map
            (fun b => (b, b / (boostedOf o.ruralUplift scores).sum * budget))))).map Prod.snd,
          o.minEuro ≤ x := by
        intro x hx
        obtain ⟨p, hp, rfl⟩ := List.mem_map.1 hx
        exact hcap_ge p hp
      constructor
      · exact renormP_sum budget _ (ne_of_gt hcap_pos)
      · intro x hx
        have h1 := renormP_mem_ge budget _ hcap_pos hcap_le hmem_ge hm x hx
        exact ⟨h1, le_trans hm h1⟩
    · -- cap strictly below the floor: every region is clipped to the cap and
      -- the renormalisation turns the constant vector into budget / N
      push_neg at hmc
      rw [capPassP_eq_allcap _ o.minEuro _ hmc hfl_ge, List.map_map]
      have hconst : (floorPassP o.minEuro ((boostedOf o.ruralUplift scores).map
          (fun b => (b, b / (boostedOf o.ruralUplift scores).sum * budget)))).map
          (Prod.snd ∘ fun p : AllocSt => (p.1, capVal budget o.maxShare)) =
          (floorPassP o.minEuro ((boostedOf o.ruralUplift scores).map
            (fun b => (b, b / (boostedOf o.ruralUplift scores).sum * budget)))).map
          (fun _ => capVal budget o.maxShare) := rfl
      rw [hconst]
      have hsumc : ((floorPassP o.minEuro ((boostedOf o.ruralUplift scores).map
          (fun b => (b, b / (boostedOf o.ruralUplift scores).sum * budget)))).map
          (fun _ => capVal budget o.maxShare)).sum =
          capVal budget o.maxShare * (scores.length : ℚ) := by
        rw [sum_map_const, hfl_len]
      have hsumne : ((floorPassP o.minEuro ((boostedOf o.ruralUplift scores).map
          (fun b => (b, b / (boostedOf o.ruralUplift scores).sum * budget)))).map
          (fun _ => capVal budget o.maxShare)).sum ≠ 0 := by
        rw [hsumc]
        positivity
      have hmB : o.minEuro ≤ budget / (scores.length : ℚ) := (le_div_iff₀ hlenq).2 hmn
      constructor
      · exact renormP_sum budget _ hsumne
      · intro x hx
        obtain ⟨a, ha, rfl⟩ := renormP_mem budget _ hx
        obtain ⟨p, _, hpa⟩ := List.mem_map.1 ha
        rw [if_neg hsumne, ← hpa, hsumc]
        have hx' : capVal budget o.maxShare *
            (budget / (capVal budget o.maxShare * (scores.length : ℚ))) =
            budget / (scores.length : ℚ) := by
          field_simp
          ring
        rw [hx']
        exact ⟨hmB, le_trans hm hmB⟩

/-! ## Properties of `Math.round` -/

theorem jsRound_mono {x y : ℚ} (h : x ≤ y) : jsRound x ≤ jsRound y := by
  unfold jsRound
  exact_mod_cast Int.floor_le_floor (by linarith)

theorem jsRound_le (x : ℚ) : jsRound x ≤ x + 1/2 := by
  unfold jsRound
  exact_mod_cast Int.floor_le (x + 1/2)

theorem jsRound_gt (x : ℚ) : x - 1/2 < jsRound x := by
  unfold jsRound
  have h := Int.lt_floor_add_one (x + 1/2)
  push_cast at h ⊢
  linarith

theorem jsRound_abs (x : ℚ) : |jsRound x - x| ≤ 1/2 := by
  have h1 := jsRound_le x
  have h2 := jsRound_gt x
  rw [abs_le]
  constructor <;> linarith

theorem jsRound_int (x : ℚ) : ∃ z : ℤ, jsRound x = (z : ℚ) := ⟨⌊x + 1/2⌋, rfl⟩

/-! ## Degenerate normalisation -/

theorem foldl_min_const (c : ℚ) (t : List ℚ) (h : ∀ v ∈ t, v = c) : t.foldl min c = c := by
  induction t with
  | nil => rfl
  | cons a t ih =>
    have ha : a = c := h a (List.mem_cons_self _ _)
    simp only [List.foldl_cons, ha, min_self]
    exact ih (fun v hv => h v (List.mem_cons_of_mem _ hv))

theorem foldl_max_const (c : ℚ) (t : List ℚ) (h : ∀ v ∈ t, v = c) : t.foldl max c = c := by
  induction t with
  | nil => rfl
  | cons a t ih =>
    have ha : a = c := h a (List.mem_cons_self _ _)
    simp only [List.foldl_cons, ha, max_self]
    exact ih (fun v hv => h v (List.mem_cons_of_mem _ hv))

theorem rng_const (vals : List ℚ) (c : ℚ) (hne : vals ≠ []) (h : ∀ v ∈ vals, v = c) :
    rng vals = ⟨c, c⟩ := by
  match vals, hne with
  | a :: t, _ =>
    have ha : a = c := h a (List.mem_cons_self _ _)
    have ht : ∀ v ∈ t, v = c := fun v hv => h v (List.mem_cons_of_mem _ hv)
    have hr : rng (a :: t) = ⟨t.foldl min a, t.foldl max a⟩ := rfl
    rw [hr, ha, foldl_min_const c t ht, foldl_max_const c t ht]

/-! ## Conservation for `scoreAndAllocate` without floor/cap -/

theorem preAllocs_nofc (rows : List MCDAInput) (w : Weights) (opt : MCDAOptions)
    (hfl : opt.floorEUR = none) (hcs : opt.capShare = none) :
    preAllocs rows w opt =
      (sharedAllocs rows w opt).map (fun a => ⟨a.la, a.score, a.share, a.share * opt.budgetEUR⟩) := by
  unfold preAllocs
  rw [hfl, hcs]
  rfl

theorem preAllocs_sum_nofc (rows : List MCDAInput) (w : Weights) (opt : MCDAOptions)
    (hfl : opt.floorEUR = none) (hcs : opt.capShare = none)
    (ht : (itemScores rows w opt).sum ≠ 0) :
    ((preAllocs rows w opt).map AllocRow.eur).sum = opt.budgetEUR := by
  have hT : totalScoreOf rows w opt = (itemScores rows w opt).sum := by
    unfold totalScoreOf
    rw [if_neg ht]
  have key : (rows.map (fun r => itemScore w opt (rangesOf rows) r *
      (opt.budgetEUR / (itemScores rows w opt).sum))).sum = opt.budgetEUR := by
    have h2 : rows.map (fun r => itemScore w opt (rangesOf rows) r *
        (opt.budgetEUR / (itemScores rows w opt).sum)) =
        rows.map (fun r => (fun r' => itemScore w opt (rangesOf rows) r') r *
          (opt.budgetEUR / (itemScores rows w opt).sum)) := rfl
    rw [h2, sum_map_factor]
    have h3 : (rows.map fun r' => itemScore w opt (rangesOf rows) r').sum =
        (itemScores rows w opt).sum := rfl
    rw [h3]
    field_simp
  calc ((preAllocs rows w opt).map AllocRow.eur).sum
      = (rows.map (fun r => itemScore w opt (rangesOf rows) r *
          (opt.budgetEUR / (itemScores rows w opt).sum))).sum := by
        rw [preAllocs_nofc rows w opt hfl hcs]
        unfold sharedAllocs
        rw [List.map_map, List.map_map]
        apply congrArg
        apply List.map_congr_left
        intro r _
        simp only [Function.comp, hT]
        ring
    _ = opt.budgetEUR := key

/-! ## Cap respect for `scoreAndAllocate` -/

theorem capOfOpt_eq (opt : MCDAOptions) (c : ℚ) (hcs : opt.capShare = some c)
    (hc0 : 0 ≤ c) (hc1 : c ≤ 1) : capOfOpt opt = c := by
  unfold capOfOpt
  rw [hcs]
  simp only [Option.getD_some]
  rw [min_eq_right hc1, max_eq_right hc0]

theorem clampedAllocs_le (rows : List MCDAInput) (w : Weights) (opt : MCDAOptions) :
    ∀ a ∈ clampedAllocs rows w opt, a.eur ≤ capOfOpt opt * opt.budgetEUR := by
  intro a ha
  obtain ⟨b, _, rfl⟩ := List.mem_map.1 ha
  exact min_le_right _ _

theorem clampedAllocs_length (rows : List MCDAInput) (w : Weights) (opt : MCDAOptions) :
    (clampedAllocs rows w opt).length = rows.length := by
  unfold clampedAllocs sharedAllocs
  rw [List.length_map, List.length_map]

theorem roomTotal0Of_eq (rows : List MCDAInput) (w : Weights) (opt : MCDAOptions) :
    roomTotal0Of rows w opt =
      capOfOpt opt * opt.budgetEUR * (rows.length : ℚ) - spentOf rows w opt := by
  unfold roomTotal0Of spentOf
  have h1 : (clampedAllocs rows w opt).map
      (fun a => max 0 (capOfOpt opt * opt.budgetEUR - a.eur)) =
      (clampedAllocs rows w opt).map
      (fun a => (fun _ : AllocRow => capOfOpt opt * opt.budgetEUR) a - AllocRow.eur a) := by
    apply List.map_congr_left
    intro a ha
    have h2 := clampedAllocs_le rows w opt a ha
    dsimp only
    rw [max_eq_right]
    linarith
  rw [h1, sum_map_sub, sum_map_const, clampedAllocs_length]

theorem preAllocs_cap_le (rows : List MCDAInput) (w : Weights) (opt : MCDAOptions) (c : ℚ)
    (hcs : opt.capShare = some c) (hc0 : 0 < c) (hc1 : c ≤ 1)
    (hN : 1 ≤ (rows.length : ℚ) * c) (hB : 0 ≤ opt.budgetEUR) :
    ∀ a ∈ preAllocs rows w opt, a.eur ≤ c * opt.budgetEUR := by
  have hcap : capOfOpt opt = c := capOfOpt_eq opt c hcs (le_of_lt hc0) hc1
  have htruthy : otruthy opt.capShare = true := by
    rw [hcs]
    unfold otruthy
    simp [ne_of_gt hc0]
  intro a ha
  unfold preAllocs at ha
  rw [htruthy, Bool.or_true] at ha
  simp only [if_pos] at ha
  obtain ⟨b, hb, rfl⟩ := List.mem_map.1 ha
  have hble : b.eur ≤ c * opt.budgetEUR := hcap ▸ clampedAllocs_le rows w opt b hb
  have hroom0 : 0 ≤ roomTotal0Of rows w opt := by
    apply sum_map_nonneg
    intro x _
    exact le_max_left 0 _
  have hrem0 : 0 ≤ remOf rows w opt := le_max_left 0 _
  have hremle : remOf rows w opt ≤ roomTotal0Of rows w opt := by
    rw [roomTotal0Of_eq]
    unfold remOf
    apply max_le
    · rw [roomTotal0Of_eq] at hroom0
      exact hroom0
    · have h1 : opt.budgetEUR ≤ capOfOpt opt * opt.budgetEUR * (rows.length : ℚ) := by
        rw [hcap]
        calc opt.budgetEUR = 1 * opt.budgetEUR := by ring
          _ ≤ ((rows.length : ℚ) * c) * opt.budgetEUR := mul_le_mul_of_nonneg_right hN hB
          _ = c * opt.budgetEUR * (rows.length : ℚ) := by ring
      linarith
  dsimp only
  by_cases hrt : roomTotal0Of rows w opt = 0
  · have hrem : remOf rows w opt = 0 := le_antisymm (hrt ▸ hremle) hrem0
    rw [hrem]
    simpa using hble
  · rw [if_neg hrt]
    have hrtpos : 0 < roomTotal0Of rows w opt := lt_of_le_of_ne hroom0 (Ne.symm hrt)
    have hmax : max 0 (capOfOpt opt * opt.budgetEUR - b.eur) =
        capOfOpt opt * opt.budgetEUR - b.eur := by
      rw [max_eq_right]
      rw [hcap]
      linarith
    rw [hmax, hcap]
    have hfrac : remOf rows w opt / roomTotal0Of rows w opt ≤ 1 :=
      (div_le_one hrtpos).2 hremle
    have h2 : (c * opt.budgetEUR - b.eur) / roomTotal0Of rows w opt * remOf rows w opt ≤
        c * opt.budgetEUR - b.eur := by
      have h3 : 0 ≤ c * opt.budgetEUR - b.eur := by linarith
      calc (c * opt.budgetEUR - b.eur) / roomTotal0Of rows w opt * remOf rows w opt
          = (c * opt.budgetEUR - b.eur) * (remOf rows w opt / roomTotal0Of rows w opt) := by
            ring
        _ ≤ (c * opt.budgetEUR - b.eur) * 1 := mul_le_mul_of_nonneg_left hfrac h3
        _ = c * opt.budgetEUR - b.eur := by ring
    linarith

theorem scoreAndAllocate_cap_le (rows : List MCDAInput) (w : Weights) (opt : MCDAOptions) (c : ℚ)
    (hcs : opt.capShare = some c) (hc0 : 0 < c) (hc1 : c ≤ 1)
    (hN : 1 ≤ (rows.length : ℚ) * c) (hB : 0 ≤ opt.budgetEUR) :
    ∀ a ∈ scoreAndAllocate rows w opt, a.eur ≤ c * opt.budgetEUR + 1/2 := by
  intro a ha
  rw [scoreAndAllocate, List.mem_mergeSort] at ha
  obtain ⟨b, hb, rfl⟩ := List.mem_map.1 ha
  have h1 := preAllocs_cap_le rows w opt c hcs hc0 hc1 hN hB b hb
  have h2 := jsRound_le b.eur
  dsimp only
  linarith

/-! ## Range decomposition for the monotonicity analysis -/

theorem foldl_min_acc (t : List ℚ) (x : ℚ) :
    ∀ y, t.foldl min (min x y) = min x (t.foldl min y) := by
  induction t with
  | nil => intro y; rfl
  | cons a t ih =>
    intro y
    simp only [List.foldl_cons]
    rw [min_assoc, ih (min y a)]

theorem foldl_max_acc (t : List ℚ) (x : ℚ) :
    ∀ y, t.foldl max (max x y) = max x (t.foldl max y) := by
  induction t with
  | nil => intro y; rfl
  | cons a t ih =>
    intro y
    simp only [List.foldl_cons]
    rw [max_assoc, ih (max y a)]

theorem foldl_min_eq (l : List ℚ) (acc : ℚ) (h : l ≠ []) :
    l.foldl min acc = min acc (rngMin l) := by
  match l, h with
  | a :: t, _ =>
    simp only [List.foldl_cons]
    exact foldl_min_acc t acc a

theorem foldl_max_eq (l : List ℚ) (acc : ℚ) (h : l ≠ []) :
    l.foldl max acc = max acc (rngMax l) := by
  match l, h with
  | a :: t, _ =>
    simp only [List.foldl_cons]
    exact foldl_max_acc t acc a

theorem rngMin_middle (u v : List ℚ) (x : ℚ) (h : u ++ v ≠ []) :
    rngMin (u ++ x :: v) = min x (rngMin (u ++ v)) := by
  match u with
  | [] =>
    have hv : v ≠ [] := by simpa using h
    show v.foldl min x = min x (rngMin v)
    exact foldl_min_eq v x hv
  | a :: t =>
    show (t ++ x :: v).foldl min a = min x (rngMin (a :: (t ++ v)))
    rw [List.foldl_append]
    show v.foldl min (min (t.foldl min a) x) = min x (rngMin (a :: (t ++ v)))
    have hr : rngMin (a :: (t ++ v)) = (t ++ v).foldl min a := rfl
    rw [hr, List.foldl_append]
    by_cases hv : v = []
    · subst hv
      simp only [List.foldl_nil]
      exact min_comm _ _
    · rw [foldl_min_eq v _ hv, foldl_min_eq v _ hv]
      rw [min_comm (t.foldl min a) x, min_assoc]

theorem rngMax_middle (u v : List ℚ) (x : ℚ) (h : u ++ v ≠ []) :
    rngMax (u ++ x :: v) = max x (rngMax (u ++ v)) := by
  match u with
  | [] =>
    have hv : v ≠ [] := by simpa using h
    show v.foldl max x = max x (rngMax v)
    exact foldl_max_eq v x hv
  | a :: t =>
    show (t ++ x :: v).foldl max a = max x (rngMax (a :: (t ++ v)))
    rw [List.foldl_append]
    show v.foldl max (max (t.foldl max a) x) = max x (rngMax (a :: (t ++ v)))
    have hr : rngMax (a :: (t ++ v)) = (t ++ v).foldl max a := rfl
    rw [hr, List.foldl_append]
    by_cases hv : v = []
    · subst hv
      simp only [List.foldl_nil]
      exact max_comm _ _
    · rw [foldl_max_eq v _ hv, foldl_max_eq v _ hv]
      rw [max_comm (t.foldl max a) x, max_assoc]

theorem rng_middle (u v : List ℚ) (x : ℚ) (h : u ++ v ≠ []) :
    rng (u ++ x :: v) = ⟨min x (rngMin (u ++ v)), max x (rngMax (u ++ v))⟩ := by
  unfold rng
  rw [rngMin_middle u v x h, rngMax_middle u v x h]

theorem foldl_min_le (t : List ℚ) :
    ∀ acc, t.foldl min acc ≤ acc ∧ ∀ y ∈ t, t.foldl min acc ≤ y := by
  induction t with
  | nil => intro acc; exact ⟨le_refl acc, by simp⟩
  | cons a t ih =>
    intro acc
    simp only [List.foldl_cons]
    obtain ⟨h1, h2⟩ := ih (min acc a)
    refine ⟨le_trans h1 (min_le_left _ _), ?_⟩
    intro y hy
    rcases List.mem_cons.1 hy with rfl | hy'
    · exact le_trans h1 (min_le_right _ _)
    · exact h2 y hy'

theorem le_foldl_max (t : List ℚ) :
    ∀ acc, acc ≤ t.foldl max acc ∧ ∀ y ∈ t, y ≤ t.foldl max acc := by
  induction t with
  | nil => intro acc; exact ⟨le_refl acc, by simp⟩
  | cons a t ih =>
    intro acc
    simp only [List.foldl_cons]
    obtain ⟨h1, h2⟩ := ih (max acc a)
    refine ⟨le_trans (le_max_left _ _) h1, ?_⟩
    intro y hy
    rcases List.mem_cons.1 hy with rfl | hy'
    · exact le_trans (le_max_right _ _) h1
    · exact h2 y hy'

theorem rngMin_le (l : List ℚ) : ∀ y ∈ l, rngMin l ≤ y := by
  match l with
  | [] => simp
  | a :: t =>
    intro y hy
    show t.foldl min a ≤ y
    rcases List.mem_cons.1 hy with rfl | hy'
    · exact (foldl_min_le t _).1
    · exact (foldl_min_le t _).2 y hy'

theorem le_rngMax (l : List ℚ) : ∀ y ∈ l, y ≤ rngMax l := by
  match l with
  | [] => simp
  | a :: t =>
    intro y hy
    show y ≤ t.foldl max a
    rcases List.mem_cons.1 hy with rfl | hy'
    · exact (le_foldl_max t _).1
    · exact (le_foldl_max t _).2 y hy'

theorem rngMin_le_rngMax (l : List ℚ) (h : l ≠ []) : rngMin l ≤ rngMax l := by
  match l, h with
  | a :: t, _ =>
    exact le_trans (rngMin_le (a :: t) a (List.mem_cons_self _ _))
      (le_rngMax (a :: t) a (List.mem_cons_self _ _))

/-! ## Pointwise behaviour of the min–max normaliser -/

theorem mm_between (mn mx z : ℚ) (h1 : mn ≤ z) (h2 : z ≤ mx) :
    0 ≤ mm z ⟨mn, mx⟩ ∧ mm z ⟨mn, mx⟩ ≤ 1 := by
  unfold mm
  dsimp only
  split
  · norm_num
  · rename_i hne
    have hlt : mn < mx := lt_of_le_of_ne (le_trans h1 h2) (fun hh => hne hh.symm)
    constructor
    · exact div_nonneg (by linarith) (by linarith)
    · rw [div_le_one (by linarith)]
      linarith

theorem mmInv_between (mn mx z : ℚ) (h1 : mn ≤ z) (h2 : z ≤ mx) :
    0 ≤ mmInv z ⟨mn, mx⟩ ∧ mmInv z ⟨mn, mx⟩ ≤ 1 := by
  unfold mmInv
  dsimp only
  split
  · norm_num
  · rename_i hne
    have hlt : mn < mx := lt_of_le_of_ne (le_trans h1 h2) (fun hh => hne hh.symm)
    constructor
    · exact div_nonneg (by linarith) (by linarith)
    · rw [div_le_one (by linarith)]
      linarith

theorem mm_self_eq_one (om oM z : ℚ) (hom : om ≤ oM) (h : oM < z) :
    mm z ⟨min z om, max z oM⟩ = 1 := by
  have e1 : min z om = om := min_eq_right (le_of_lt (lt_of_le_of_lt hom h))
  have e2 : max z oM = z := max_eq_left (le_of_lt h)
  rw [e1, e2]
  unfold mm
  dsimp only
  rw [if_neg (ne_of_gt (lt_of_le_of_lt hom h))]
  exact div_self (sub_ne_zero.2 (ne_of_gt (lt_of_le_of_lt hom h)))

/-- Increasing a value never decreases its own min–max normalisation, even as
its movement stretches the range. -/
theorem mm_self_mono (om oM x x' : ℚ) (hom : om ≤ oM) (hxx : x ≤ x') :
    mm x ⟨min x om, max x oM⟩ ≤ mm x' ⟨min x' om, max x' oM⟩ := by
  rcases lt_or_le oM x with h1 | h1
  · rw [mm_self_eq_one om oM x hom h1, mm_self_eq_one om oM x' hom (lt_of_lt_of_le h1 hxx)]
  · rcases lt_or_le oM x' with h2 | h2
    · rw [mm_self_eq_one om oM x' hom h2]
      exact (mm_between _ _ x (min_le_left _ _) (le_max_left _ _)).2
    · rcases le_or_lt om x with h3 | h3
      · have e1 : min x om = om := min_eq_right h3
        have e2 : min x' om = om := min_eq_right (le_trans h3 hxx)
        have e3 : max x oM = oM := max_eq_right h1
        have e4 : max x' oM = oM := max_eq_right h2
        rw [e1, e2, e3, e4]
        unfold mm
        dsimp only
        split
        · exact le_refl _
        · rename_i hne
          have hlt : om < oM := lt_of_le_of_ne hom (fun hh => hne hh.symm)
          rw [div_le_div_iff₀ (by linarith) (by linarith)]
          nlinarith
      · have e1 : min x om = x := min_eq_left (le_of_lt h3)
        have e3 : max x oM = oM := max_eq_right h1
        rw [e1, e3]
        have hxoM : x < oM := lt_of_lt_of_le h3 hom
        unfold mm
        dsimp only
        rw [if_neg (ne_of_gt hxoM), sub_self, zero_div]
        exact (mm_between (min x' om) (max x' oM) x' (min_le_left _ _) (le_max_left _ _)).1

/-- Enlarging the top of the range never increases another value's
normalisation. -/
theorem mm_max_anti (om oM y M Mp : ℚ) (h1 : om ≤ y) (h2 : y ≤ oM)
    (h3 : oM ≤ M) (h4 : M ≤ Mp) : mm y ⟨om, Mp⟩ ≤ mm y ⟨om, M⟩ := by
  by_cases hM : M = om
  · have hy : y = om := le_antisymm (by linarith) h1
    have hr : mm y ⟨om, M⟩ = 1/2 := by
      unfold mm
      dsimp only
      rw [if_pos hM]
    rw [hr]
    by_cases hMp : Mp = om
    · unfold mm
      dsimp only
      rw [if_pos hMp]
    · unfold mm
      dsimp only
      rw [if_neg hMp, hy, sub_self, zero_div]
      norm_num
  · have hltM : om < M := lt_of_le_of_ne (le_trans h1 (le_trans h2 h3)) (Ne.symm hM)
    have hltMp : om < Mp := lt_of_lt_of_le hltM h4
    unfold mm
    dsimp only
    rw [if_neg (ne_of_gt hltMp), if_neg (ne_of_gt hltM)]
    rw [div_le_div_iff₀ (by linarith) (by linarith)]
    nlinarith [mul_nonneg (sub_nonneg.2 h1) (sub_nonneg.2 h4)]

/-- Lowering the bottom of the range below `om` never decreases another
value's normalisation relative to the `⟨om, oM⟩` range. -/
theorem mm_low_anti (om oM y x : ℚ) (h1 : om ≤ y) (h2 : y ≤ oM) (hx : x < om) :
    mm y ⟨om, oM⟩ ≤ mm y ⟨x, oM⟩ := by
  have hxoM : x < oM := lt_of_lt_of_le hx (le_trans h1 h2)
  have hrx : mm y ⟨x, oM⟩ = (y - x) / (oM - x) := by
    unfold mm
    dsimp only
    rw [if_neg (ne_of_gt hxoM)]
  rw [hrx]
  by_cases hd : oM = om
  · have hy : y = om := le_antisymm (hd ▸ h2) h1
    have hr : mm y ⟨om, oM⟩ = 1/2 := by
      unfold mm
      dsimp only
      rw [if_pos hd]
    have h5 : (y - x) / (oM - x) = 1 := by
      rw [hy, hd]
      exact div_self (sub_ne_zero.2 (ne_of_gt hx))
    rw [hr, h5]
    norm_num
  · have hlt : om < oM := lt_of_le_of_ne (le_trans h1 h2) (Ne.symm hd)
    have hr : mm y ⟨om, oM⟩ = (y - om) / (oM - om) := by
      unfold mm
      dsimp only
      rw [if_neg (ne_of_gt hlt)]
    rw [hr, div_le_div_iff₀ (by linarith) (by linarith)]
    nlinarith [mul_nonneg (sub_nonneg.2 (le_of_lt hx)) (sub_nonneg.2 h2)]

/-- Raising a bottom value that stays below `om` never increases another
value's normalisation. -/
theorem mm_lowpair_anti (om oM y x x' : ℚ) (h1 : om ≤ y) (h2 : y ≤ oM)
    (hxx : x ≤ x') (hx' : x' < om) : mm y ⟨x', oM⟩ ≤ mm y ⟨x, oM⟩ := by
  have hx : x < om := lt_of_le_of_lt hxx hx'
  have hxoM : x < oM := lt_of_lt_of_le hx (le_trans h1 h2)
  have hx'oM : x' < oM := lt_of_lt_of_le hx' (le_trans h1 h2)
  unfold mm
  dsimp only
  rw [if_neg (ne_of_gt hxoM), if_neg (ne_of_gt hx'oM)]
  rw [div_le_div_iff₀ (by linarith) (by linarith)]
  nlinarith [mul_nonneg (sub_nonneg.2 hxx) (sub_nonneg.2 h2)]

/-- Increasing one region's raw value never increases any other region's
min–max normalisation. -/
theorem mm_other_anti (om oM y x x' : ℚ) (hom : om ≤ oM) (h1 : om ≤ y) (h2 : y ≤ oM)
    (hxx : x ≤ x') :
    mm y ⟨min x' om, max x' oM⟩ ≤ mm y ⟨min x om, max x oM⟩ := by
  rcases le_or_lt om x with hx | hx
  · have e1 : min x om = om := min_eq_right hx
    have e2 : min x' om = om := min_eq_right (le_trans hx hxx)
    rw [e1, e2]
    exact mm_max_anti om oM y (max x oM) (max x' oM) h1 h2 (le_max_right x oM)
      (max_le_max hxx (le_refl oM))
  · rcases le_or_lt om x' with hx' | hx'
    · have e1 : min x om = x := min_eq_left (le_of_lt hx)
      have e2 : min x' om = om := min_eq_right hx'
      have e3 : max x oM = oM := max_eq_right (le_of_lt (lt_of_lt_of_le hx hom))
      rw [e1, e2, e3]
      calc mm y ⟨om, max x' oM⟩ ≤ mm y ⟨om, oM⟩ :=
            mm_max_anti om oM y oM (max x' oM) h1 h2 (le_refl oM) (le_max_right x' oM)
        _ ≤ mm y ⟨x, oM⟩ := mm_low_anti om oM y x h1 h2 hx
    · have e1 : min x om = x := min_eq_left (le_of_lt hx)
      have e2 : min x' om = x' := min_eq_left (le_of_lt hx')
      have e3 : max x oM = oM := max_eq_right (le_of_lt (lt_of_lt_of_le hx hom))
      have e4 : max x' oM = oM := max_eq_right (le_of_lt (lt_of_lt_of_le hx' hom))
      rw [e1, e2, e3, e4]
      exact mm_lowpair_anti om oM y x x' h1 h2 hxx hx'

/-! ## Score-level monotonicity helpers -/

theorem uplift_factor_nonneg (opt : MCDAOptions) (r : MCDAInput)
    (h : 0 < opt.ruralUplift.getD 0) :
    0 ≤ 1 + opt.ruralUplift.getD 0 * max 0 (min 1 (r.ruralIndex.getD 0)) := by
  have h1 : 0 ≤ max 0 (min 1 (r.ruralIndex.getD 0)) := le_max_left _ _
  nlinarith

theorem itemScore_le_of_base (w : Weights) (opt : MCDAOptions) (rsA rsB : IndRanges)
    (qA qB : MCDAInput) (hbase : baseScore w rsA qA ≤ baseScore w rsB qB)
    (hru : qA.ruralIndex = qB.ruralIndex) :
    itemScore w opt rsA qA ≤ itemScore w opt rsB qB := by
  unfold itemScore
  rw [hru]
  split
  · rename_i hu
    exact mul_le_mul_of_nonneg_right hbase (uplift_factor_nonneg opt qB hu)
  · exact hbase

theorem itemScore_nonneg (w : Weights) (opt : MCDAOptions) (rs : IndRanges)
    (q : MCDAInput) (hbase : 0 ≤ baseScore w rs q) : 0 ≤ itemScore w opt rs q := by
  unfold itemScore
  split
  · rename_i hu
    exact mul_nonneg hbase (uplift_factor_nonneg opt q hu)
  · exact hbase

theorem baseScore_nonneg (rows : List MCDAInput) (w : Weights) (q : MCDAInput)
    (hq : q ∈ rows)
    (hw1 : 0 ≤ w.wGrowth) (hw2 : 0 ≤ w.wOadr) (hw3 : 0 ≤ w.wHousingInv)
    (hw4 : 0 ≤ w.wIncomeInv) (hw5 : 0 ≤ w.wGrantsInv) :
    0 ≤ baseScore w (rangesOf rows) q := by
  unfold baseScore rangesOf
  dsimp only
  have hg := (mm_between (rngMin (rows.map MCDAInput.growth65))
    (rngMax (rows.map MCDAInput.growth65)) q.growth65
    (rngMin_le _ _ (List.mem_map_of_mem _ hq)) (le_rngMax _ _ (List.mem_map_of_mem _ hq))).1
  have ho := (mm_between (rngMin (rows.map MCDAInput.oadr))
    (rngMax (rows.map MCDAInput.oadr)) q.oadr
    (rngMin_le _ _ (List.mem_map_of_mem _ hq)) (le_rngMax _ _ (List.mem_map_of_mem _ hq))).1
  have hh := (mmInv_between (rngMin (rows.map MCDAInput.dwellingsPer1k65))
    (rngMax (rows.map MCDAInput.dwellingsPer1k65)) q.dwellingsPer1k65
    (rngMin_le _ _ (List.mem_map_of_mem _ hq)) (le_rngMax _ _ (List.mem_map_of_mem _ hq))).1
  have hi := (mmInv_between (rngMin (rows.map MCDAInput.medianIncome))
    (rngMax (rows.map MCDAInput.medianIncome)) q.medianIncome
    (rngMin_le _ _ (List.mem_map_of_mem _ hq)) (le_rngMax _ _ (List.mem_map_of_mem _ hq))).1
  have he := (mmInv_between (rngMin (rows.map MCDAInput.grantsPer65))
    (rngMax (rows.map MCDAInput.grantsPer65)) q.grantsPer65
    (rngMin_le _ _ (List.mem_map_of_mem _ hq)) (le_rngMax _ _ (List.mem_map_of_mem _ hq))).1
  have h1 : ∀ vals : List ℚ, rng vals = ⟨rngMin vals, rngMax vals⟩ := fun vals => rfl
  rw [h1, h1, h1, h1, h1]
  nlinarith [mul_nonneg hw1 hg, mul_nonneg hw2 ho, mul_nonneg hw3 hh,
    mul_nonneg hw4 hi, mul_nonneg hw5 he]

theorem baseScore_single (w : Weights) (r : MCDAInput) :
    baseScore w (rangesOf [r]) r =
      (w.wGrowth + w.wOadr + w.wHousingInv + w.wIncomeInv + w.wGrantsInv) * (1/2) := by
  unfold baseScore rangesOf rng rngMin rngMax mm mmInv
  norm_num
  ring

theorem share_mono (s s' R R' : ℚ) (hs : 0 ≤ s) (hss : s ≤ s') (hR' : 0 ≤ R')
    (hRR : R' ≤ R) :
    s / (if s + R = 0 then 1 else s + R) ≤ s' / (if s' + R' = 0 then 1 else s' + R') := by
  by_cases h2 : s' + R' = 0
  · have hs' : s = 0 := by nlinarith
    have hsp : s' = 0 := by nlinarith
    rw [h2, hs', hsp]
    simp
  · have h2pos : 0 < s' + R' := lt_of_le_of_ne (by nlinarith) (Ne.symm h2)
    by_cases h1 : s + R = 0
    · have hs0 : s = 0 := by nlinarith
      rw [h1, hs0, if_pos rfl, if_neg h2, zero_div]
      exact div_nonneg (by nlinarith) (le_of_lt h2pos)
    · have h1pos : 0 < s + R := lt_of_le_of_ne (by nlinarith) (Ne.symm h1)
      rw [if_neg h1, if_neg h2, div_le_div_iff₀ h1pos h2pos]
      nlinarith

/-! ## Assembling monotonicity of `scoreAndAllocate` (no floor/cap) -/

theorem getElem?_map_middle {α β : Type} (f : α → β) (l₁ l₂ : List α) (b : α) :
    ((l₁ ++ b :: l₂).map f)[l₁.length]? = some (f b) := by
  rw [List.map_append, List.map_cons]
  have h2 : l₁.length = (l₁.map f).length := (List.length_map _ _).symm
  rw [h2, List.getElem?_append_right (le_refl _)]
  simp

theorem roundedAllocs_nofc (rows : List MCDAInput) (w : Weights) (opt : MCDAOptions)
    (hfl : opt.floorEUR = none) (hcs : opt.capShare = none) :
    roundedAllocs rows w opt = rows.map (fun q =>
      ⟨q.la, itemScore w opt (rangesOf rows) q,
       itemScore w opt (rangesOf rows) q / totalScoreOf rows w opt,
       jsRound (itemScore w opt (rangesOf rows) q / totalScoreOf rows w opt *
         opt.budgetEUR)⟩) := by
  unfold roundedAllocs
  rw [preAllocs_nofc rows w opt hfl hcs]
  unfold sharedAllocs
  rw [List.map_map, List.map_map]
  rfl

theorem eurAtIdx_middle (l₁ l₂ : List MCDAInput) (r : MCDAInput) (w : Weights)
    (opt : MCDAOptions) (hfl : opt.floorEUR = none) (hcs : opt.capShare = none) :
    eurAtIdx (l₁ ++ r :: l₂) w opt l₁.length =
      jsRound (itemScore w opt (rangesOf (l₁ ++ r :: l₂)) r /
        totalScoreOf (l₁ ++ r :: l₂) w opt * opt.budgetEUR) := by
  unfold eurAtIdx
  rw [roundedAllocs_nofc _ w opt hfl hcs, getElem?_map_middle]

theorem eur_mono_of_scores (l₁ l₂ : List MCDAInput) (r r' : MCDAInput)
    (w : Weights) (opt : MCDAOptions)
    (hfl : opt.floorEUR = none) (hcs : opt.capShare = none) (hB : 0 ≤ opt.budgetEUR)
    (hs0 : 0 ≤ itemScore w opt (rangesOf (l₁ ++ r :: l₂)) r)
    (hss : itemScore w opt (rangesOf (l₁ ++ r :: l₂)) r ≤
      itemScore w opt (rangesOf (l₁ ++ r' :: l₂)) r')
    (hq1 : ∀ q ∈ l₁, itemScore w opt (rangesOf (l₁ ++ r' :: l₂)) q ≤
      itemScore w opt (rangesOf (l₁ ++ r :: l₂)) q)
    (hq2 : ∀ q ∈ l₂, itemScore w opt (rangesOf (l₁ ++ r' :: l₂)) q ≤
      itemScore w opt (rangesOf (l₁ ++ r :: l₂)) q)
    (hq1' : ∀ q ∈ l₁, 0 ≤ itemScore w opt (rangesOf (l₁ ++ r' :: l₂)) q)
    (hq2' : ∀ q ∈ l₂, 0 ≤ itemScore w opt (rangesOf (l₁ ++ r' :: l₂)) q) :
    eurAtIdx (l₁ ++ r :: l₂) w opt l₁.length ≤
      eurAtIdx (l₁ ++ r' :: l₂) w opt l₁.length := by
  rw [eurAtIdx_middle l₁ l₂ r w opt hfl hcs, eurAtIdx_middle l₁ l₂ r' w opt hfl hcs]
  apply jsRound_mono
  apply mul_le_mul_of_nonneg_right _ hB
  have hT : (itemScores (l₁ ++ r :: l₂) w opt).sum =
      itemScore w opt (rangesOf (l₁ ++ r :: l₂)) r +
      ((l₁.map (itemScore w opt (rangesOf (l₁ ++ r :: l₂)))).sum +
       (l₂.map (itemScore w opt (rangesOf (l₁ ++ r :: l₂)))).sum) := by
    unfold itemScores
    rw [List.map_append, List.map_cons, List.sum_append, List.sum_cons]
    ring
  have hT' : (itemScores (l₁ ++ r' :: l₂) w opt).sum =
      itemScore w opt (rangesOf (l₁ ++ r' :: l₂)) r' +
      ((l₁.map (itemScore w opt (rangesOf (l₁ ++ r' :: l₂)))).sum +
       (l₂.map (itemScore w opt (rangesOf (l₁ ++ r' :: l₂)))).sum) := by
    unfold itemScores
    rw [List.map_append, List.map_cons, List.sum_append, List.sum_cons]
    ring
  unfold totalScoreOf
  rw [hT, hT']
  apply share_mono _ _ _ _ hs0 hss
  · exact add_nonneg (sum_map_nonneg hq1') (sum_map_nonneg hq2')
  · exact add_le_add (List.sum_le_sum hq1) (List.sum_le_sum hq2)

theorem growth_mono_aux (l₁ l₂ : List MCDAInput) (r : MCDAInput) (x' : ℚ)
    (w : Weights) (opt : MCDAOptions)
    (hg : r.growth65 ≤ x')
    (hw1 : 0 ≤ w.wGrowth) (hw2 : 0 ≤ w.wOadr) (hw3 : 0 ≤ w.wHousingInv)
    (hw4 : 0 ≤ w.wIncomeInv) (hw5 : 0 ≤ w.wGrantsInv)
    (hB : 0 ≤ opt.budgetEUR)
    (hfl : opt.floorEUR = none) (hcs : opt.capShare = none) :
    eurAtIdx (l₁ ++ r :: l₂) w opt l₁.length ≤
      eurAtIdx (l₁ ++ (⟨r.la, x', r.oadr, r.dwellingsPer1k65, r.medianIncome,
        r.grantsPer65, r.ruralIndex⟩ : MCDAInput) :: l₂) w opt l₁.length := by
  set r' : MCDAInput := ⟨r.la, x', r.oadr, r.dwellingsPer1k65, r.medianIncome,
    r.grantsPer65, r.ruralIndex⟩ with hr'
  by_cases hc : l₁ ++ l₂ = ([] : List MCDAInput)
  · obtain ⟨he1, he2⟩ := List.append_eq_nil.1 hc
    subst he1
    subst he2
    have hbase : baseScore w (rangesOf [r]) r = baseScore w (rangesOf [r']) r' := by
      rw [baseScore_single, baseScore_single]
    have hss : itemScore w opt (rangesOf [r]) r = itemScore w opt (rangesOf [r']) r' := by
      unfold itemScore
      rw [hbase, hr']
    apply eur_mono_of_scores [] [] r r' w opt hfl hcs hB
    · exact itemScore_nonneg w opt _ r
        (baseScore_nonneg _ w r (by simp) hw1 hw2 hw3 hw4 hw5)
    · exact le_of_eq hss
    · intro q hq
      exact absurd hq (List.not_mem_nil q)
    · intro q hq
      exact absurd hq (List.not_mem_nil q)
    · intro q hq
      exact absurd hq (List.not_mem_nil q)
    · intro q hq
      exact absurd hq (List.not_mem_nil q)
  · have houv : l₁.map MCDAInput.growth65 ++ l₂.map MCDAInput.growth65 ≠ [] := by
      cases l₁ with
      | cons a t => simp
      | nil =>
        cases l₂ with
        | cons a t => simp
        | nil => exact absurd rfl hc
    have hom : rngMin (l₁.map MCDAInput.growth65 ++ l₂.map MCDAInput.growth65) ≤
        rngMax (l₁.map MCDAInput.growth65 ++ l₂.map MCDAInput.growth65) :=
      rngMin_le_rngMax _ houv
    have hrngg : rng (List.map MCDAInput.growth65 (l₁ ++ r :: l₂)) =
        ⟨min r.growth65 (rngMin (l₁.map MCDAInput.growth65 ++ l₂.map MCDAInput.growth65)),
         max r.growth65 (rngMax (l₁.map MCDAInput.growth65 ++ l₂.map MCDAInput.growth65))⟩ := by
      rw [List.map_append, List.map_cons]
      exact rng_middle _ _ _ houv
    have hrngg' : rng (List.map MCDAInput.growth65 (l₁ ++ r' :: l₂)) =
        ⟨min x' (rngMin (l₁.map MCDAInput.growth65 ++ l₂.map MCDAInput.growth65)),
         max x' (rngMax (l₁.map MCDAInput.growth65 ++ l₂.map MCDAInput.growth65))⟩ := by
      rw [List.map_append, List.map_cons]
      exact rng_middle _ _ _ houv
    have hmapo : List.map MCDAInput.oadr (l₁ ++ r' :: l₂) =
        List.map MCDAInput.oadr (l₁ ++ r :: l₂) := by
      simp [hr']
    have hmapd : List.map MCDAInput.dwellingsPer1k65 (l₁ ++ r' :: l₂) =
        List.map MCDAInput.dwellingsPer1k65 (l₁ ++ r :: l₂) := by
      simp [hr']
    have hmapi : List.map MCDAInput.medianIncome (l₁ ++ r' :: l₂) =
        List.map MCDAInput.medianIncome (l₁ ++ r :: l₂) := by
      simp [hr']
    have hmape : List.map MCDAInput.grantsPer65 (l₁ ++ r' :: l₂) =
        List.map MCDAInput.grantsPer65 (l₁ ++ r :: l₂) := by
      simp [hr']
    have hbase_r : baseScore w (rangesOf (l₁ ++ r :: l₂)) r ≤
        baseScore w (rangesOf (l₁ ++ r' :: l₂)) r' := by
      unfold baseScore rangesOf
      dsimp only
      rw [hrngg, hrngg', hmapo, hmapd, hmapi, hmape]
      have hmono := mm_self_mono _ _ r.growth65 x' hom hg
      have h5 := mul_le_mul_of_nonneg_left hmono hw1
      linarith
    have hbase_q : ∀ q ∈ l₁ ++ l₂, baseScore w (rangesOf (l₁ ++ r' :: l₂)) q ≤
        baseScore w (rangesOf (l₁ ++ r :: l₂)) q := by
      intro q hq
      have hqg : q.growth65 ∈ l₁.map MCDAInput.growth65 ++ l₂.map MCDAInput.growth65 := by
        rw [← List.map_append]
        exact List.mem_map_of_mem _ hq
      have hq1 := rngMin_le _ _ hqg
      have hq2 := le_rngMax _ _ hqg
      unfold baseScore rangesOf
      dsimp only
      rw [hrngg, hrngg', hmapo, hmapd, hmapi, hmape]
      have hanti := mm_other_anti _ _ q.growth65 r.growth65 x' hom hq1 hq2 hg
      have h5 := mul_le_mul_of_nonneg_left hanti hw1
      linarith
    apply eur_mono_of_scores l₁ l₂ r r' w opt hfl hcs hB
    · exact itemScore_nonneg w opt _ r
        (baseScore_nonneg _ w r (by simp) hw1 hw2 hw3 hw4 hw5)
    · exact itemScore_le_of_base w opt _ _ r r' hbase_r rfl
    · intro q hq
      exact itemScore_le_of_base w opt _ _ q q
        (hbase_q q (List.mem_append_left _ hq)) rfl
    · intro q hq
      exact itemScore_le_of_base w opt _ _ q q
        (hbase_q q (List.mem_append_right _ hq)) rfl
    · intro q hq
      exact itemScore_nonneg w opt _ q
        (baseScore_nonneg _ w q (List.mem_append_left _ hq) hw1 hw2 hw3 hw4 hw5)
    · intro q hq
      exact itemScore_nonneg w opt _ q
        (baseScore_nonneg _ w q
          (List.mem_append_right _ (List.mem_cons_of_mem _ hq)) hw1 hw2 hw3 hw4 hw5)

theorem oadr_mono_aux (l₁ l₂ : List MCDAInput) (r : MCDAInput) (x' : ℚ)
    (w : Weights) (opt : MCDAOptions)
    (hg : r.oadr ≤ x')
    (hw1 : 0 ≤ w.wGrowth) (hw2 : 0 ≤ w.wOadr) (hw3 : 0 ≤ w.wHousingInv)
    (hw4 : 0 ≤ w.wIncomeInv) (hw5 : 0 ≤ w.wGrantsInv)
    (hB : 0 ≤ opt.budgetEUR)
    (hfl : opt.floorEUR = none) (hcs : opt.capShare = none) :
    eurAtIdx (l₁ ++ r :: l₂) w opt l₁.length ≤
      eurAtIdx (l₁ ++ (⟨r.la, r.growth65, x', r.dwellingsPer1k65, r.medianIncome,
        r.grantsPer65, r.ruralIndex⟩ : MCDAInput) :: l₂) w opt l₁.length := by
  set r' : MCDAInput := ⟨r.la, r.growth65, x', r.dwellingsPer1k65, r.medianIncome,
    r.grantsPer65, r.ruralIndex⟩ with hr'
  by_cases hc : l₁ ++ l₂ = ([] : List MCDAInput)
  · obtain ⟨he1, he2⟩ := List.append_eq_nil.1 hc
    subst he1
    subst he2
    have hbase : baseScore w (rangesOf [r]) r = baseScore w (rangesOf [r']) r' := by
      rw [baseScore_single, baseScore_single]
    have hss : itemScore w opt (rangesOf [r]) r = itemScore w opt (rangesOf [r']) r' := by
      unfold itemScore
      rw [hbase, hr']
    apply eur_mono_of_scores [] [] r r' w opt hfl hcs hB
    · exact itemScore_nonneg w opt _ r
        (baseScore_nonneg _ w r (by simp) hw1 hw2 hw3 hw4 hw5)
    · exact le_of_eq hss
    · intro q hq
      exact absurd hq (List.not_mem_nil q)
    · intro q hq
      exact absurd hq (List.not_mem_nil q)
    · intro q hq
      exact absurd hq (List.not_mem_nil q)
    · intro q hq
      exact absurd hq (List.not_mem_nil q)
  · have houv : l₁.map MCDAInput.oadr ++ l₂.map MCDAInput.oadr ≠ [] := by
      cases l₁ with
      | cons a t => simp
      | nil =>
        cases l₂ with
        | cons a t => simp
        | nil => exact absurd rfl hc
    have hom : rngMin (l₁.map MCDAInput.oadr ++ l₂.map MCDAInput.oadr) ≤
        rngMax (l₁.map MCDAInput.oadr ++ l₂.map MCDAInput.oadr) :=
      rngMin_le_rngMax _ houv
    have hrngg : rng (List.map MCDAInput.oadr (l₁ ++ r :: l₂)) =
        ⟨min r.oadr (rngMin (l₁.map MCDAInput.oadr ++ l₂.map MCDAInput.oadr)),
         max r.oadr (rngMax (l₁.map MCDAInput.oadr ++ l₂.map MCDAInput.oadr))⟩ := by
      rw [List.map_append, List.map_cons]
      exact rng_middle _ _ _ houv
    have hrngg' : rng (List.map MCDAInput.oadr (l₁ ++ r' :: l₂)) =
        ⟨min x' (rngMin (l₁.map MCDAInput.oadr ++ l₂.map MCDAInput.oadr)),
         max x' (rngMax (l₁.map MCDAInput.oadr ++ l₂.map MCDAInput.oadr))⟩ := by
      rw [List.map_append, List.map_cons]
      exact rng_middle _ _ _ houv
    have hmapg : List.map MCDAInput.growth65 (l₁ ++ r' :: l₂) =
        List.map MCDAInput.growth65 (l₁ ++ r :: l₂) := by
      simp [hr']
    have hmapd : List.map MCDAInput.dwellingsPer1k65 (l₁ ++ r' :: l₂) =
        List.map MCDAInput.dwellingsPer1k65 (l₁ ++ r :: l₂) := by
      simp [hr']
    have hmapi : List.map MCDAInput.medianIncome (l₁ ++ r' :: l₂) =
        List.map MCDAInput.medianIncome (l₁ ++ r :: l₂) := by
      simp [hr']
    have hmape : List.map MCDAInput.grantsPer65 (l₁ ++ r' :: l₂) =
        List.map MCDAInput.grantsPer65 (l₁ ++ r :: l₂) := by
      simp [hr']
    have hbase_r : baseScore w (rangesOf (l₁ ++ r :: l₂)) r ≤
        baseScore w (rangesOf (l₁ ++ r' :: l₂)) r' := by
      unfold baseScore rangesOf
      dsimp only
      rw [hrngg, hrngg', hmapg, hmapd, hmapi, hmape]
      have hmono := mm_self_mono _ _ r.oadr x' hom hg
      have h5 := mul_le_mul_of_nonneg_left hmono hw2
      linarith
    have hbase_q : ∀ q ∈ l₁ ++ l₂, baseScore w (rangesOf (l₁ ++ r' :: l₂)) q ≤
        baseScore w (rangesOf (l₁ ++ r :: l₂)) q := by
      intro q hq
      have hqg : q.oadr ∈ l₁.map MCDAInput.oadr ++ l₂.map MCDAInput.oadr := by
        rw [← List.map_append]
        exact List.mem_map_of_mem _ hq
      have hq1 := rngMin_le _ _ hqg
      have hq2 := le_rngMax _ _ hqg
      unfold baseScore rangesOf
      dsimp only
      rw [hrngg, hrngg', hmapg, hmapd, hmapi, hmape]
      have hanti := mm_other_anti _ _ q.oadr r.oadr x' hom hq1 hq2 hg
      have h5 := mul_le_mul_of_nonneg_left hanti hw2
      linarith
    apply eur_mono_of_scores l₁ l₂ r r' w opt hfl hcs hB
    · exact itemScore_nonneg w opt _ r
        (baseScore_nonneg _ w r (by simp) hw1 hw2 hw3 hw4 hw5)
    · exact itemScore_le_of_base w opt _ _ r r' hbase_r rfl
    · intro q hq
      exact itemScore_le_of_base w opt _ _ q q
        (hbase_q q (List.mem_append_left _ hq)) rfl
    · intro q hq
      exact itemScore_le_of_base w opt _ _ q q
        (hbase_q q (List.mem_append_right _ hq)) rfl
    · intro q hq
      exact itemScore_nonneg w opt _ q
        (baseScore_nonneg _ w q (List.mem_append_left _ hq) hw1 hw2 hw3 hw4 hw5)
    · intro q hq
      exact itemScore_nonneg w opt _ q
        (baseScore_nonneg _ w q
          (List.mem_append_right _ (List.mem_cons_of_mem _ hq)) hw1 hw2 hw3 hw4 hw5)

/-! ## The equal-split fallback of `allocateBudget` -/

theorem allocateBudget_fallback (scores : List (ℚ × Bool)) (budget : ℚ) (o : AllocOpts)
    (hne : scores ≠ []) (hb : 0 < budget)
    (htot : (boostedOf o.ruralUplift scores).sum ≤ 0) :
    allocateBudget scores budget o =
      List.replicate scores.length (budget / (scores.length : ℚ)) := by
  have hlen : 0 < scores.length := List.length_pos.2 hne
  have hlenq : (0:ℚ) < (scores.length : ℚ) := by exact_mod_cast hlen
  unfold allocateBudget
  rw [if_pos htot]
  by_cases hmB : max 0 o.minEuro * (scores.length : ℚ) ≤ budget
  · have heven : max 0 ((budget - max 0 o.minEuro * (scores.length : ℚ)) / (scores.length : ℚ)) =
        (budget - max 0 o.minEuro * (scores.length : ℚ)) / (scores.length : ℚ) :=
      max_eq_right (div_nonneg (by linarith) (le_of_lt hlenq))
    have hc0 : max 0 o.minEuro +
        max 0 ((budget - max 0 o.minEuro * (scores.length : ℚ)) / (scores.length : ℚ)) =
        budget / (scores.length : ℚ) := by
      rw [heven]
      field_simp
    rw [hc0]
    unfold renormP
    rw [List.sum_replicate, nsmul_eq_mul]
    have hsum : (scores.length : ℚ) * (budget / (scores.length : ℚ)) = budget := by
      field_simp
    rw [hsum, if_neg (ne_of_gt hb), List.map_replicate]
    have harg : budget / (scores.length : ℚ) * (budget / budget) =
        budget / (scores.length : ℚ) := by
      rw [div_self (ne_of_gt hb), mul_one]
    rw [harg]
  · push_neg at hmB
    have heven : max 0 ((budget - max 0 o.minEuro * (scores.length : ℚ)) / (scores.length : ℚ)) = 0 := by
      apply max_eq_left
      apply div_nonpos_of_nonpos_of_nonneg (by linarith) (le_of_lt hlenq)
    rw [heven, add_zero]
    have hm'pos : 0 < max 0 o.minEuro := by
      rcases lt_or_le 0 (max 0 o.minEuro) with h | h
      · exact h
      · exfalso
        have h0 : max 0 o.minEuro = 0 := le_antisymm h (le_max_left _ _)
        rw [h0] at hmB
        simp at hmB
        linarith
    unfold renormP
    rw [List.sum_replicate, nsmul_eq_mul]
    have hne0 : (scores.length : ℚ) * max 0 o.minEuro ≠ 0 := by positivity
    rw [if_neg hne0, List.map_replicate]
    have harg : max 0 o.minEuro * (budget / ((scores.length : ℚ) * max 0 o.minEuro)) =
        budget / (scores.length : ℚ) := by
      field_simp
      ring
    rw [harg]

/-! ## Concrete example inputs used in the evidence below -/

/-- A row with a single meaningful indicator (`growth65`); the other four
indicator columns are constant across all example rows, so they normalise to
`1/2` and carry weight `0` in `exW`. -/
def exRow (n : String) (g : ℚ) : MCDAInput := ⟨n, g, 0, 0, 0, 0, none⟩

/-- Weight vector putting all weight on the growth indicator. -/
def exW : Weights := ⟨1, 0, 0, 0, 0⟩

/-! ## Claim C1 — budget conservation -/

/-- Claim C1 counterexample: with three identical regions and budget 301 the
rounded allocations returned by `scoreAndAllocate` sum to 300, which misses
the budget by far more than the claimed 1e-6 relative epsilon.  The input is
valid (positive budget, unit weight, no floor/cap). -/
theorem c1_counterexample :
    ((scoreAndAllocate [exRow "a" 5, exRow "b" 5, exRow "c" 5] exW
      ⟨none, none, none, 301⟩).map AllocRow.eur).sum = 300 ∧
    (301 : ℚ) * (1 / 1000000) < |(300 : ℚ) - 301| := by
  constructor
  · norm_num [scoreAndAllocate, roundedAllocs, preAllocs, sharedAllocs, otruthy, exRow, exW,
      itemScore, baseScore, rangesOf, rng, rngMin, rngMax, mm, mmInv, totalScoreOf, itemScores,
      jsRound, List.mergeSort]
  · norm_num

/-- Claim C1 (amended): `allocateBudget` conserves the budget exactly (in
exact arithmetic) for every non-empty region set with a positive budget and
valid options (non-negative floor, uplift and cap share, floor × N ≤ budget);
`scoreAndAllocate` conserves only its pre-rounding allocations, and only when
floor/cap are inactive and the composite scores do not sum to zero — the
returned values are rounded to whole euros and can drift beyond 1e-6
relative. -/
theorem c1_conservation_amended :
    (∀ (scores : List (ℚ × Bool)) (budget : ℚ) (o : AllocOpts),
      scores ≠ [] → 0 < budget → 0 ≤ o.minEuro →
      o.minEuro * (scores.length : ℚ) ≤ budget → 0 ≤ o.ruralUplift → 0 ≤ o.maxShare →
      (allocateBudget scores budget o).sum = budget) ∧
    (∀ (rows : List MCDAInput) (w : Weights) (opt : MCDAOptions),
      opt.floorEUR = none → opt.capShare = none → (itemScores rows w opt).sum ≠ 0 →
      ((preAllocs rows w opt).map AllocRow.eur).sum = opt.budgetEUR) :=
  ⟨fun scores budget o h1 h2 h3 h4 h5 h6 =>
    (allocateBudget_spec scores budget o h1 h2 h3 h4 h5 h6).1,
   fun rows w opt h1 h2 h3 => preAllocs_sum_nofc rows w opt h1 h2 h3⟩

/-- Claim C1 witness: both conservation statements evaluated at concrete
inputs. -/
theorem c1_conservation_amended_witness :
    (0 : ℚ) < 100 ∧
    (allocateBudget [(1, false), (2, false)] 100 ⟨1, 10, 0⟩).sum = 100 ∧
    ((preAllocs [exRow "a" 1, exRow "b" 2] exW ⟨none, none, none, 100⟩).map
      AllocRow.eur).sum = 100 :=
  ⟨by norm_num,
   c1_conservation_amended.1 [(1, false), (2, false)] 100 ⟨1, 10, 0⟩ (by simp) (by norm_num)
     (by norm_num) (by norm_num) (by norm_num) (by norm_num),
   c1_conservation_amended.2 [exRow "a" 1, exRow "b" 2] exW ⟨none, none, none, 100⟩ rfl rfl
     (by norm_num [itemScores, itemScore, baseScore, rangesOf, rng, rngMin, rngMax, mm, mmInv,
       exRow, exW])⟩

/-! ## Claim C2 — the floor-redistribution scenario -/

/-- Claim C2: with scores proportional to `[0, 1/3, 2/3]`, budget 300000,
floor 50000, no uplift and no cap, `allocateBudget` raises the zero-score
region to the floor and recovers the 50000 deficit from the two donors in
proportion to their surplus over the floor, returning exactly
`[50000, 87500, 162500]`. -/
theorem c2_floor_redistribution :
    allocateBudget [(0, false), (1, false), (2, false)] 300000 ⟨1, 50000, 0⟩ =
      [50000, 87500, 162500] := by
  norm_num [allocateBudget, boostedOf, boosted1, renormP, floorPassP, capPassP, capVal,
    deficitOf, floorRaiseP, poolOf, recoverP, excessOf, clipP, recvCount, wsumOf, distributeP]

/-! ## Claim C3 — cap respect -/

/-- Claim C3 counterexample: `allocateBudget` with scores `[900, 99, 1]`,
budget 100 and `maxShare = 2/5` (feasible: 3 × 2/5 ≥ 1) gives region 2 an
allocation of 297/5 = 59.4, exceeding the cap 2/5 × 100 = 40 by far more
than any floating-point epsilon: the cap-excess redistribution can push a
receiver above the cap and nothing re-clips it. -/
theorem c3_counterexample :
    allocateBudget [(900, false), (99, false), (1, false)] 100 ⟨2/5, 0, 0⟩ =
      [40, 297/5, 3/5] ∧
    1 ≤ (3 : ℚ) * (2/5) ∧ (2/5 : ℚ) * 100 + 1 < 297/5 := by
  refine ⟨?_, by norm_num, by norm_num⟩
  norm_num [allocateBudget, boostedOf, boosted1, renormP, floorPassP, capPassP, capVal,
    deficitOf, floorRaiseP, poolOf, recoverP, excessOf, clipP, recvCount, wsumOf, distributeP]

/-- Claim C3 (amended): cap respect holds for `scoreAndAllocate`: with a
configured cap share `c ∈ (0,1]`, feasibility `N × c ≥ 1` and a non-negative
budget, every pre-rounding allocation is at most `c × budget`, and every
returned (rounded) allocation is at most `c × budget + 1/2`.  (The page's
`allocateBudget` violates cap respect — see the counterexample.) -/
theorem c3_cap_respect_amended (rows : List MCDAInput) (w : Weights) (opt : MCDAOptions)
    (c : ℚ) (hcs : opt.capShare = some c) (hc0 : 0 < c) (hc1 : c ≤ 1)
    (hN : 1 ≤ (rows.length : ℚ) * c) (hB : 0 ≤ opt.budgetEUR) :
    (∀ a ∈ preAllocs rows w opt, a.eur ≤ c * opt.budgetEUR) ∧
    (∀ a ∈ scoreAndAllocate rows w opt, a.eur ≤ c * opt.budgetEUR + 1/2) :=
  ⟨preAllocs_cap_le rows w opt c hcs hc0 hc1 hN hB,
   scoreAndAllocate_cap_le rows w opt c hcs hc0 hc1 hN hB⟩

/-- Claim C3 witness: cap respect for two regions with cap share 1/2. -/
theorem c3_cap_respect_amended_witness :
    (0 : ℚ) < 1/2 ∧
    (∀ a ∈ preAllocs [exRow "a" 1, exRow "b" 2] exW ⟨none, none, some (1/2), 100⟩,
      a.eur ≤ 1/2 * (100 : ℚ)) ∧
    (∀ a ∈ scoreAndAllocate [exRow "a" 1, exRow "b" 2] exW ⟨none, none, some (1/2), 100⟩,
      a.eur ≤ 1/2 * (100 : ℚ) + 1/2) :=
  ⟨by norm_num,
   (c3_cap_respect_amended [exRow "a" 1, exRow "b" 2] exW ⟨none, none, some (1/2), 100⟩
     (1/2) rfl (by norm_num) (by norm_num) (by norm_num) (by norm_num)).1,
   (c3_cap_respect_amended [exRow "a" 1, exRow "b" 2] exW ⟨none, none, some (1/2), 100⟩
     (1/2) rfl (by norm_num) (by norm_num) (by norm_num) (by norm_num)).2⟩

/-! ## Claim C4 — non-negativity and floor respect -/

/-- Claim C4 counterexample: `scoreAndAllocate` with two identical regions,
floor 40, cap share 3/10 and budget 100 (so floor × N = 80 ≤ 100) returns 30
to each region — below the floor — because the cap `min` is applied after the
floor `max` and nothing restores the floor afterwards. -/
theorem c4_counterexample :
    (scoreAndAllocate [exRow "a" 5, exRow "b" 5] exW
      ⟨none, some 40, some (3/10), 100⟩).map AllocRow.eur = [30, 30] ∧
    (40 : ℚ) * 2 ≤ 100 ∧ (30 : ℚ) < 40 := by
  refine ⟨?_, by norm_num, by norm_num⟩
  norm_num [scoreAndAllocate, roundedAllocs, preAllocs, sharedAllocs, clampedAllocs,
    spentOf, remOf, roomTotal0Of, floorOfOpt, capOfOpt, otruthy, exRow, exW,
    itemScore, baseScore, rangesOf, rng, rngMin, rngMax, mm, mmInv, totalScoreOf, itemScores,
    jsRound, List.mergeSort]

/-- Claim C4 (amended): for `allocateBudget` under the spec's validity
constraints (non-negative floor, uplift and cap share, positive budget,
floor × N ≤ budget, at least one region) every final allocation is ≥ 0 and
≥ the floor: the proportional deficit recovery never pushes a donor below the
floor and the final renormalisation preserves the bound.  `scoreAndAllocate`
can return allocations below the floor when `capShare × budget < floor` —
see the counterexample. -/
theorem c4_floor_respect_amended (scores : List (ℚ × Bool)) (budget : ℚ) (o : AllocOpts)
    (hne : scores ≠ []) (hb : 0 < budget) (hm : 0 ≤ o.minEuro)
    (hmn : o.minEuro * (scores.length : ℚ) ≤ budget)
    (hu : 0 ≤ o.ruralUplift) (hms : 0 ≤ o.maxShare) :
    ∀ x ∈ allocateBudget scores budget o, 0 ≤ x ∧ o.minEuro ≤ x := by
  intro x hx
  have h := (allocateBudget_spec scores budget o hne hb hm hmn hu hms).2 x hx
  exact ⟨h.2, h.1⟩

/-- Claim C4 witness: floor respect at a concrete input. -/
theorem c4_floor_respect_amended_witness :
    (10 : ℚ) * 2 ≤ 100 ∧
    ∀ x ∈ allocateBudget [(1, false), (3, false)] 100 ⟨1, 10, 0⟩, 0 ≤ x ∧ (10 : ℚ) ≤ x :=
  ⟨by norm_num,
   c4_floor_respect_amended [(1, false), (3, false)] 100 ⟨1, 10, 0⟩ (by simp) (by norm_num)
     (by norm_num) (by norm_num) (by norm_num) (by norm_num)⟩

/-! ## Claim C5 — degenerate normalisation -/

/-- Claim C5: when an indicator's raw values are identical across all regions
(so max = min), both `mm` and `mmInv` assign every value the neutral score
1/2. -/
theorem c5_degenerate_half (vals : List ℚ) (x c : ℚ) (hne : vals ≠ [])
    (hall : ∀ v ∈ vals, v = c) :
    mm x (rng vals) = 1/2 ∧ mmInv x (rng vals) = 1/2 := by
  rw [rng_const vals c hne hall]
  unfold mm mmInv
  norm_num

/-- Claim C5 witness: the degenerate list `[3, 3]` normalises any probe value
to 1/2. -/
theorem c5_degenerate_half_witness :
    ([3, 3] : List ℚ) ≠ [] ∧ mm 5 (rng [3, 3]) = 1/2 ∧ mmInv 5 (rng [3, 3]) = 1/2 :=
  ⟨by simp,
   (c5_degenerate_half [3, 3] 5 3 (by simp) (by simp)).1,
   (c5_degenerate_half [3, 3] 5 3 (by simp) (by simp)).2⟩

/-! ## Claim C6 — invalid-budget rejection -/

/-- Claim C6 evidence: at the invalid budget −100 the engine does not reject;
`scoreAndAllocate` silently returns a full allocation vector containing the
meaningless negative allocation −100. -/
theorem c6_invalid_budget_passthrough :
    (scoreAndAllocate [exRow "a" 1, exRow "b" 2] exW
      ⟨none, none, none, -100⟩).map AllocRow.eur = [0, -100] ∧ (-100 : ℚ) < 0 := by
  refine ⟨?_, by norm_num⟩
  norm_num [scoreAndAllocate, roundedAllocs, preAllocs, sharedAllocs, otruthy, exRow, exW,
    itemScore, baseScore, rangesOf, rng, rngMin, rngMax, mm, mmInv, totalScoreOf, itemScores,
    jsRound, List.mergeSort]

/-! ## Claim C7 — the all-zero-score fallback -/

/-- Claim C7 counterexample: with all scores zero, budget 300000, floor 50000
and 3 regions, `allocateBudget` returns 100000 to every region, not the
claimed `max(floor, (budget − floor×N)/N) = 50000`: the fallback adds the
floor and the even remainder and the final renormalisation rescales the
constant vector to an exact equal split. -/
theorem c7_counterexample :
    allocateBudget [(0, false), (0, false), (0, false)] 300000 ⟨1, 50000, 0⟩ =
      [100000, 100000, 100000] ∧
    max (50000 : ℚ) ((300000 - 50000 * 3) / 3) = 50000 ∧ (100000 : ℚ) ≠ 50000 := by
  refine ⟨?_, by norm_num, by norm_num⟩
  norm_num [allocateBudget, boostedOf, boosted1, renormP, floorPassP, capPassP, capVal,
    deficitOf, floorRaiseP, poolOf, recoverP, excessOf, clipP, recvCount, wsumOf, distributeP,
    List.replicate]

/-- Claim C7 (amended): when the boosted scores sum to ≤ 0 and the budget is
positive, `allocateBudget` gives every one of the N regions exactly
`budget / N` (the pre-renormalisation values `max(0,floor) + max(0,(budget −
max(0,floor)×N)/N)` are rescaled by the final renormalisation), and
`budget / N ≥ floor` whenever `floor × N ≤ budget`, so no region ends below
the floor. -/
theorem c7_fallback_amended (scores : List (ℚ × Bool)) (budget : ℚ) (o : AllocOpts)
    (hne : scores ≠ []) (hb : 0 < budget)
    (htot : (boostedOf o.ruralUplift scores).sum ≤ 0) :
    allocateBudget scores budget o =
      List.replicate scores.length (budget / (scores.length : ℚ)) ∧
    (o.minEuro * (scores.length : ℚ) ≤ budget →
      o.minEuro ≤ budget / (scores.length : ℚ)) := by
  have hlenq : (0:ℚ) < (scores.length : ℚ) := by
    exact_mod_cast List.length_pos.2 hne
  exact ⟨allocateBudget_fallback scores budget o hne hb htot,
    fun hmn => (le_div_iff₀ hlenq).2 hmn⟩

/-- Claim C7 witness: the fallback at three zero-score regions. -/
theorem c7_fallback_amended_witness :
    (boostedOf 0 [((0:ℚ), false), (0, false), (0, false)]).sum ≤ 0 ∧
    allocateBudget [((0:ℚ), false), (0, false), (0, false)] 300000 ⟨1, 50000, 0⟩ =
      [100000, 100000, 100000] := by
  constructor
  · norm_num [boostedOf, boosted1]
  · have h := (c7_fallback_amended [((0:ℚ), false), (0, false), (0, false)] 300000
      ⟨1, 50000, 0⟩ (by simp) (by norm_num) (by norm_num [boostedOf, boosted1])).1
    rw [h]
    norm_num [List.replicate]

/-! ## Claim C8 — rural-uplift clamping -/

/-- Claim C8 counterexample: with a caller-supplied uplift of 1/2 (outside
the claimed clamp range [0, 0.25]) and a fully rural region, the scorer
multiplies by 1 + 1/2 = 3/2, yielding score 3/4; under the claimed clamping
to 0.25 the score would be 1/2 × (1 + 1/4) = 5/8.  The engine does not clamp
the uplift. -/
theorem c8_counterexample :
    itemScores [⟨"a", 1, 0, 0, 0, 0, some 1⟩] exW ⟨some (1/2), none, none, 100⟩ = [3/4] ∧
    (3/4 : ℚ) ≠ 1/2 * (1 + 1/4 * 1) := by
  refine ⟨?_, by norm_num⟩
  norm_num [itemScores, itemScore, baseScore, rangesOf, rng, rngMin, rngMax, mm, mmInv, exW]

/-- Claim C8 (amended): the scorer computes the weighted sum of normalised
indicators and, when the supplied uplift is positive, multiplies by
`(1 + uplift × ruralIndex)` with only the rural index clamped (to [0,1]) —
the uplift itself is applied exactly as supplied, not clamped to [0, 0.25];
a non-positive (or absent) uplift leaves the base score unchanged. -/
theorem c8_uplift_amended (rows : List MCDAInput) (w : Weights) (opt : MCDAOptions) :
    (0 < opt.ruralUplift.getD 0 →
      itemScores rows w opt = rows.map (fun r => baseScore w (rangesOf rows) r *
        (1 + opt.ruralUplift.getD 0 * max 0 (min 1 (r.ruralIndex.getD 0))))) ∧
    (opt.ruralUplift.getD 0 ≤ 0 →
      itemScores rows w opt = rows.map (baseScore w (rangesOf rows))) := by
  constructor
  · intro hu
    unfold itemScores itemScore
    apply List.map_congr_left
    intro r _
    rw [if_pos hu]
  · intro hu
    unfold itemScores itemScore
    apply List.map_congr_left
    intro r _
    rw [if_neg (not_lt.2 hu)]

/-- Claim C8 witness: the uplift formula with uplift 1/2, and the no-uplift
formula with an absent uplift. -/
theorem c8_uplift_amended_witness :
    (0 : ℚ) < 1/2 ∧
    itemScores [⟨"a", 1, 0, 0, 0, 0, some 1⟩] exW ⟨some (1/2), none, none, 100⟩ =
      [(⟨"a", 1, 0, 0, 0, 0, some 1⟩ : MCDAInput)].map (fun r =>
        baseScore exW (rangesOf [⟨"a", 1, 0, 0, 0, 0, some 1⟩]) r *
          (1 + (⟨some (1/2), none, none, 100⟩ : MCDAOptions).ruralUplift.getD 0 *
            max 0 (min 1 (r.ruralIndex.getD 0)))) ∧
    itemScores [⟨"a", 1, 0, 0, 0, 0, some 1⟩] exW ⟨none, none, none, 100⟩ =
      [(⟨"a", 1, 0, 0, 0, 0, some 1⟩ : MCDAInput)].map
        (baseScore exW (rangesOf [⟨"a", 1, 0, 0, 0, 0, some 1⟩])) :=
  ⟨by norm_num,
   (c8_uplift_amended [⟨"a", 1, 0, 0, 0, 0, some 1⟩] exW ⟨some (1/2), none, none, 100⟩).1
     (by norm_num),
   (c8_uplift_amended [⟨"a", 1, 0, 0, 0, 0, some 1⟩] exW ⟨none, none, none, 100⟩).2
     (by norm_num)⟩

/-! ## Claim C9 — monotonicity in a benefit indicator -/

/-- Claim C9 counterexample: with an active infeasible cap
(`capShare = 1/5`, 4 regions, 4 × 1/5 < 1), raising region a's growth
indicator from 1/10 to 1/2 (all else fixed) drops its returned allocation
from 28 to 20: crossing the cap forfeits its share of the over-budget
top-up. -/
theorem c9_counterexample :
    eurAtIdx [exRow "a" (1/10), exRow "b" (6/10), exRow "c" 1, exRow "d" 0] exW
      ⟨none, none, some (1/5), 100⟩ 0 = 28 ∧
    eurAtIdx [exRow "a" (1/2), exRow "b" (6/10), exRow "c" 1, exRow "d" 0] exW
      ⟨none, none, some (1/5), 100⟩ 0 = 20 ∧
    (1/10 : ℚ) ≤ 1/2 ∧ (20 : ℚ) < 28 := by
  refine ⟨?_, ?_, by norm_num, by norm_num⟩ <;>
    norm_num [eurAtIdx, roundedAllocs, preAllocs, sharedAllocs, clampedAllocs,
      spentOf, remOf, roomTotal0Of, floorOfOpt, capOfOpt, otruthy, exRow, exW,
      itemScore, baseScore, rangesOf, rng, rngMin, rngMax, mm, mmInv, totalScoreOf,
      itemScores, jsRound]

/-- Claim C9 (amended): with the floor and cap options inactive, non-negative
weights and a non-negative budget, increasing one region's raw benefit
indicator — growth rate or old-age dependency ratio — while holding
everything else fixed never decreases that region's returned euro allocation
from `scoreAndAllocate`.  (With an active infeasible cap the property fails —
see the counterexample.) -/
theorem c9_monotonic_amended :
    (∀ (l₁ l₂ : List MCDAInput) (r : MCDAInput) (x' : ℚ) (w : Weights) (opt : MCDAOptions),
      r.growth65 ≤ x' → 0 ≤ w.wGrowth → 0 ≤ w.wOadr → 0 ≤ w.wHousingInv →
      0 ≤ w.wIncomeInv → 0 ≤ w.wGrantsInv → 0 ≤ opt.budgetEUR →
      opt.floorEUR = none → opt.capShare = none →
      eurAtIdx (l₁ ++ r :: l₂) w opt l₁.length ≤
        eurAtIdx (l₁ ++ (⟨r.la, x', r.oadr, r.dwellingsPer1k65, r.medianIncome,
          r.grantsPer65, r.ruralIndex⟩ : MCDAInput) :: l₂) w opt l₁.length) ∧
    (∀ (l₁ l₂ : List MCDAInput) (r : MCDAInput) (x' : ℚ) (w : Weights) (opt : MCDAOptions),
      r.oadr ≤ x' → 0 ≤ w.wGrowth → 0 ≤ w.wOadr → 0 ≤ w.wHousingInv →
      0 ≤ w.wIncomeInv → 0 ≤ w.wGrantsInv → 0 ≤ opt.budgetEUR →
      opt.floorEUR = none → opt.capShare = none →
      eurAtIdx (l₁ ++ r :: l₂) w opt l₁.length ≤
        eurAtIdx (l₁ ++ (⟨r.la, r.growth65, x', r.dwellingsPer1k65, r.medianIncome,
          r.grantsPer65, r.ruralIndex⟩ : MCDAInput) :: l₂) w opt l₁.length) :=
  ⟨fun l₁ l₂ r x' w opt h1 h2 h3 h4 h5 h6 h7 h8 h9 =>
    growth_mono_aux l₁ l₂ r x' w opt h1 h2 h3 h4 h5 h6 h7 h8 h9,
   fun l₁ l₂ r x' w opt h1 h2 h3 h4 h5 h6 h7 h8 h9 =>
    oadr_mono_aux l₁ l₂ r x' w opt h1 h2 h3 h4 h5 h6 h7 h8 h9⟩

/-- Claim C9 witness: raising region a's growth from 0 to 1/2 at index 0. -/
theorem c9_monotonic_amended_witness :
    (exRow "a" 0).growth65 ≤ (1/2 : ℚ) ∧
    eurAtIdx ([] ++ exRow "a" 0 :: [exRow "b" 1]) exW ⟨none, none, none, 100⟩
      (List.length ([] : List MCDAInput)) ≤
    eurAtIdx ([] ++ (⟨(exRow "a" 0).la, 1/2, (exRow "a" 0).oadr,
      (exRow "a" 0).dwellingsPer1k65, (exRow "a" 0).medianIncome,
      (exRow "a" 0).grantsPer65, (exRow "a" 0).ruralIndex⟩ : MCDAInput) :: [exRow "b" 1])
      exW ⟨none, none, none, 100⟩ (List.length ([] : List MCDAInput)) :=
  ⟨by norm_num [exRow],
   c9_monotonic_amended.1 [] [exRow "b" 1] (exRow "a" 0) (1/2) exW ⟨none, none, none, 100⟩
     (by norm_num [exRow]) (by norm_num [exW]) (by norm_num [exW]) (by norm_num [exW])
     (by norm_num [exW]) (by norm_num [exW]) (by norm_num) rfl rfl⟩

/-! ## Claim C10 — allocations are rounded to whole euros -/

/-- Claim C10: every `eur` in the array returned by `scoreAndAllocate` is an
integer — `Math.round` is applied to each allocation before returning — and
each differs from its exact pre-rounding amount by at most half a euro. -/
theorem c10_rounded_integer (rows : List MCDAInput) (w : Weights) (opt : MCDAOptions) :
    ∀ a ∈ scoreAndAllocate rows w opt,
      (∃ z : ℤ, a.eur = (z : ℚ)) ∧
      ∃ b ∈ preAllocs rows w opt, a.eur = jsRound b.eur ∧ |a.eur - b.eur| ≤ 1/2 := by
  intro a ha
  unfold scoreAndAllocate at ha
  rw [List.mem_mergeSort] at ha
  unfold roundedAllocs at ha
  obtain ⟨b, hb, rfl⟩ := List.mem_map.1 ha
  exact ⟨jsRound_int b.eur, b, hb, rfl, jsRound_abs b.eur⟩

/-- Claim C10 witness: the top row of a concrete run is the integer 100,
rounded from the exact pre-rounding amount 100. -/
theorem c10_rounded_integer_witness :
    ((⟨"b", 1, 1, 100⟩ : AllocRow) ∈
      scoreAndAllocate [exRow "a" 1, exRow "b" 2] exW ⟨none, none, none, 100⟩) ∧
    ((∃ z : ℤ, (⟨"b", 1, 1, 100⟩ : AllocRow).eur = (z : ℚ)) ∧
      ∃ b ∈ preAllocs [exRow "a" 1, exRow "b" 2] exW ⟨none, none, none, 100⟩,
        (⟨"b", 1, 1, 100⟩ : AllocRow).eur = jsRound b.eur ∧
        |(⟨"b", 1, 1, 100⟩ : AllocRow).eur - b.eur| ≤ 1/2) := by
  have hmem : (⟨"b", 1, 1, 100⟩ : AllocRow) ∈
      scoreAndAllocate [exRow "a" 1, exRow "b" 2] exW ⟨none, none, none, 100⟩ := by
    norm_num [scoreAndAllocate, roundedAllocs, preAllocs, sharedAllocs, otruthy, exRow, exW,
      itemScore, baseScore, rangesOf, rng, rngMin, rngMax, mm, mmInv, totalScoreOf,
      itemScores, jsRound, List.mergeSort]
  exact ⟨hmem, c10_rounded_integer [exRow "a" 1, exRow "b" 2] exW
    ⟨none, none, none, 100⟩ _ hmem⟩

end AfiDash
